/-
Verification of the core of the `thresh` tabular-file utility:
the column-namespace resolver, the expression evaluator, the
projection/assembly engine ("cat"), and the fixed-width text renderer.

The definitions below are a shallow embedding of the Python sources
`thresh/__init__.py`, `thresh/tabular_file_container.py` and the earlier
revision `thresh.py`.  Numeric data is modelled with rationals, numpy
1-D arrays with lists, Python `OrderedDict`s with association lists
(with explicit dict-semantics update/lookup/delete operations), and
fallible Python code with `Except`.
-/
import Mathlib

set_option maxHeartbeats 1000000

namespace Thresh

/-- Runtime values flowing through the evaluator and the tables:
numpy scalars (`num`), 1-D numpy arrays (`arr`), Python `None`
(`pynone`), an entry of the evaluator's fixed vocabulary (`builtin`,
an opaque function or constant identified by its name), the binding of
the whole numpy module (`npmodule`, the `safe_dict` entry `"np"`), and
the special `__aliases` object (recorded by its alias -> column-names
structure; nothing in the verified code inspects its values). -/
inductive Value where
  | num (q : ℚ)
  | arr (l : List ℚ)
  | pynone
  | builtin (nm : String)
  | npmodule
  | aliasesObj (entries : List (String × List String))
deriving DecidableEq, Repr

/-- Faults raised by the expression evaluator (`eval_from_dict`):
the `NamingConflict` KeyError, the `NameError` for an undefined name,
the numpy broadcast `ValueError` for incompatible lengths, a Python
`TypeError`, and a `SyntaxError` from parsing the expression text. -/
inductive EvalErr where
  | namingConflict (names : List String)
  | undefinedName (nm : String)
  | lengthMismatch (m n : Nat)
  | typeError
  | syntaxError
deriving DecidableEq, Repr

/-- Faults raised by table construction, the namespace resolver and the
assembly engine, mirroring the `raise` sites of the source. -/
inductive ThreshErr where
  | duplicateAlias (a : String)
  | invalidAlias (a : String)
  | ambiguousRequest (tok : String)
  | unresolvedToken (tok : String)
  | emptyLabel (tok : String)
  | emptyExpression (tok : String)
  | removeNotFound (head : String)
  | keyError (k : String)
  | evalErr (e : EvalErr)
  | lenTypeError
  | unevenLengths
  | emptyContent
  | indexError
deriving DecidableEq, Repr

/-- Non-fatal diagnostics written to stderr by `cat_control`. -/
inductive Warning where
  | clobber (label : String)
  | remove (label : String)
  | generic (msg : String)
deriving DecidableEq, Repr

/-! ### Association lists with Python-dict semantics -/

/-- Python dict lookup `m[k]` (as an `Option`). -/
def lookupKey (m : List (String × Value)) (k : String) : Option Value :=
  (m.find? (fun p => decide (p.1 = k))).map Prod.snd

/-- Python dict assignment `m[k] = v`: overwrites in place (keeping the
original insertion position) if the key is present, else appends. -/
def setKey (m : List (String × Value)) (k : String) (v : Value) :
    List (String × Value) :=
  match m with
  | [] => [(k, v)]
  | (k', v') :: rest =>
      if k' = k then (k, v) :: rest else (k', v') :: setKey rest k v

/-- Python dict deletion `m.pop(k)` (removes the first binding of `k`). -/
def delKey (m : List (String × Value)) (k : String) : List (String × Value) :=
  match m with
  | [] => []
  | (k', v') :: rest =>
      if k' = k then rest else (k', v') :: delKey rest k

/-- Python `base.update(upd)`: every binding of `upd` is written into
`base` with dict-assignment semantics. -/
def dictUpdate (base upd : List (String × Value)) : List (String × Value) :=
  upd.foldl (fun m p => setKey m p.1 p.2) base

/-- The keys of an association list, in order. -/
def keysOf (m : List (String × Value)) : List String := m.map Prod.fst

/-! ### The evaluator's fixed vocabulary (`safe_dict`) -/

/-- What a `safe_dict` entry is bound to in the source: a single numpy
function, a numeric constant, or — for the entry `"np"` — the entire
numpy module ("Just all of numpy"). -/
inductive VocabEntry where
  | fn
  | const
  | wholeModule
deriving DecidableEq, Repr

/-- The `safe_dict` of `eval_from_dict` in `thresh/__init__.py`, entry by
entry in source order, each tagged with what it binds. -/
def safe_dict_spec : List (String × VocabEntry) :=
  [("sqrt", .fn), ("sin", .fn), ("cos", .fn), ("tan", .fn),
   ("asin", .fn), ("acos", .fn), ("atan", .fn), ("atan2", .fn),
   ("cosh", .fn), ("sinh", .fn), ("tanh", .fn), ("sinc", .fn),
   ("pi", .const), ("log", .fn), ("exp", .fn), ("floor", .fn),
   ("ceil", .fn), ("abs", .fn), ("radians", .fn), ("degrees", .fn),
   ("int", .fn), ("float", .fn), ("bool", .fn), ("clip", .fn),
   ("hypot", .fn), ("mod", .fn), ("round", .fn),
   ("average", .fn), ("mean", .fn), ("median", .fn), ("dot", .fn),
   ("array", .fn), ("cumprod", .fn), ("cumsum", .fn), ("arange", .fn),
   ("diff", .fn), ("interp", .fn), ("linspace", .fn), ("ones", .fn),
   ("sort", .fn), ("zeros", .fn),
   ("random", .fn), ("uniform", .fn), ("normal", .fn),
   ("np", .wholeModule)]

/-- The `safe_dict` as an evaluation environment: every function and
constant entry is an opaque builtin object named after itself, and the
entry `"np"` is the whole-module binding. -/
def safe_dict : List (String × Value) :=
  safe_dict_spec.map (fun p =>
    (p.1, match p.2 with
          | .wholeModule => Value.npmodule
          | _ => Value.builtin p.1))

/-- A representative subset of the public members of the numpy module,
each reachable as an attribute `np.<member>` of the `"np"` binding.
The real module exposes hundreds of members; only membership of the
listed ones is used. -/
def npAttrNames : List String :=
  ["load", "save", "loadtxt", "savetxt", "genfromtxt", "fromfile",
   "pi", "diff", "max", "abs", "all"]

/-- Members of numpy that perform filesystem I/O (per the numpy
documentation: they read or write files). -/
def npFileIONames : List String :=
  ["load", "save", "loadtxt", "savetxt", "genfromtxt", "fromfile"]

/-! ### Expressions and their evaluation -/

/-- The fragment of Python expressions exercised by the verified code
paths: numeric literals, the `None` literal, name lookups, the
arithmetic operators `+`, `-`, `*`, and attribute access `e.attr`. -/
inductive Expr where
  | lit (q : ℚ)
  | noneLit
  | name (s : String)
  | add (a b : Expr)
  | sub (a b : Expr)
  | mul (a b : Expr)
  | attr (e : Expr) (field : String)
deriving DecidableEq, Repr

/-- The names an expression reads from its evaluation namespace. -/
def freeVars : Expr → List String
  | .lit _ => []
  | .noneLit => []
  | .name s => [s]
  | .add a b => freeVars a ++ freeVars b
  | .sub a b => freeVars a ++ freeVars b
  | .mul a b => freeVars a ++ freeVars b
  | .attr e _ => freeVars e

/-- numpy's elementwise arithmetic on scalars and 1-D arrays, including
its broadcasting rule: equal lengths combine elementwise, a length-1
array broadcasts against any length, anything else is a `ValueError`. -/
def broadcastOp (f : ℚ → ℚ → ℚ) : Value → Value → Except EvalErr Value
  | .num a, .num b => .ok (.num (f a b))
  | .num a, .arr l => .ok (.arr (l.map (fun x => f a x)))
  | .arr l, .num b => .ok (.arr (l.map (fun x => f x b)))
  | .arr l₁, .arr l₂ =>
      if l₁.length = l₂.length then .ok (.arr (List.zipWith f l₁ l₂))
      else
        match l₁, l₂ with
        | [x], l₂ => .ok (.arr (l₂.map (fun y => f x y)))
        | l₁, [y] => .ok (.arr (l₁.map (fun x => f x y)))
        | l₁, l₂ => .error (.lengthMismatch l₁.length l₂.length)
  | _, _ => .error .typeError

/-- Evaluation of an expression over a namespace, with Python's
left-to-right evaluation order. -/
def evalExpr (env : List (String × Value)) : Expr → Except EvalErr Value
  | .lit q => .ok (.num q)
  | .noneLit => .ok .pynone
  | .name s =>
      match lookupKey env s with
      | some v => .ok v
      | none => .error (.undefinedName s)
  | .add a b => do
      let x ← evalExpr env a
      let y ← evalExpr env b
      broadcastOp (· + ·) x y
  | .sub a b => do
      let x ← evalExpr env a
      let y ← evalExpr env b
      broadcastOp (· - ·) x y
  | .mul a b => do
      let x ← evalExpr env a
      let y ← evalExpr env b
      broadcastOp (· * ·) x y
  | .attr e field => do
      let v ← evalExpr env e
      match v with
      | .npmodule =>
          if field ∈ npAttrNames then .ok (.builtin ("np." ++ field))
          else .error .typeError
      | _ => .error .typeError

/-- `eval_from_dict(source, eval_str)` of `thresh/__init__.py`: raise a
`KeyError` if a `source` key shadows a vocabulary name, else evaluate
over the vocabulary updated with `source`. -/
def eval_from_dict (source : List (String × Value)) (e : Expr) :
    Except EvalErr Value :=
  let conflicts := (keysOf safe_dict).filter (fun k => (source.map Prod.fst).contains k)
  if conflicts = [] then evalExpr (dictUpdate safe_dict source) e
  else .error (.namingConflict conflicts)

/-! ### Parsing expression strings -/

/-- Python's reserved keywords (`keyword.kwlist`), used by alias
validation in `TabularFile.__init__`. -/
def pythonKeywords : List String :=
  ["False", "None", "True", "and", "as", "assert", "async", "await",
   "break", "class", "continue", "def", "del", "elif", "else", "except",
   "finally", "for", "from", "global", "if", "import", "in", "is",
   "lambda", "nonlocal", "not", "or", "pass", "raise", "return", "try",
   "while", "with", "yield"]

/-- Python's `str.isidentifier` restricted to ASCII: a letter or
underscore followed by letters, digits or underscores. -/
def isPyIdentifier (s : String) : Bool :=
  match s.data with
  | [] => false
  | c :: rest =>
      (c.isAlpha || c = '_') && rest.all (fun d => d.isAlphanum || d = '_')

/-- Python `c in s` for a single character. -/
def containsChar (s : String) (c : Char) : Bool :=
  s.data.any (fun d => d = c)

/-- Python `str.strip()` on a character list: drop leading and trailing
whitespace. -/
def pyStripChars (l : List Char) : List Char :=
  ((l.dropWhile Char.isWhitespace).reverse.dropWhile Char.isWhitespace).reverse

/-- Python `str.strip()`. -/
def pyStrip (s : String) : String := String.mk (pyStripChars s.data)

/-- Python `s.split(c, maxsplit=1)` for a single-character separator
that is known to occur: the part before the first occurrence and
everything after it. -/
def splitFirstChars (c : Char) : List Char → List Char × List Char
  | [] => ([], [])
  | x :: xs =>
      if x = c then ([], xs)
      else
        let r := splitFirstChars c xs
        (x :: r.1, r.2)

/-- Python `s.split(c)` for a single-character separator. -/
def splitChar (c : Char) : List Char → List (List Char)
  | [] => [[]]
  | x :: xs =>
      match splitChar c xs with
      | [] => [[]]
      | y :: ys => if x = c then [] :: y :: ys else (x :: y) :: ys

/-- Python `int(s)` restricted to unsigned decimal literals. -/
def parseNat? (s : String) : Option ℕ :=
  if s.data ≠ [] ∧ s.data.all Char.isDigit then
    some (s.data.foldl (fun acc c => 10 * acc + (c.toNat - 48)) 0)
  else none

/-- Parse one additive term: the `None` literal, a natural-number
literal, or a name. -/
def parseTerm (s : String) : Option Expr :=
  if s = "None" then some .noneLit
  else
    match parseNat? s with
    | some n => some (.lit n)
    | none => if isPyIdentifier s then some (.name s) else none

/-- Parse the additive fragment of Python expressions used by the `cat`
tokens of the verified code paths (`t1 + t2 + ...`).  This models the
front half of the Python `eval` call; expressions outside the fragment
are reported as a syntax fault. -/
def parseExpr (s : String) : Option Expr :=
  match (splitChar '+' s.data).map String.mk with
  | [] => none
  | t :: ts => do
      let e0 ← parseTerm t
      ts.foldlM (fun acc u => do
        let e ← parseTerm u
        pure (Expr.add acc e)) e0

/-- `eval_from_dict` applied to an expression given as text, as the
assembly engine does: parse, then evaluate. -/
def eval_from_dict_str (source : List (String × Value)) (s : String) :
    Except ThreshErr Value :=
  match parseExpr s with
  | none => .error (.evalErr .syntaxError)
  | some e =>
      match eval_from_dict source e with
      | .ok v => .ok v
      | .error err => .error (.evalErr err)

/-! ### Tabular files -/

/-- The in-memory representation of one tabular source
(`TabularFile` of `thresh/tabular_file_container.py`); the diagnostic
`name` field is omitted (it never influences behaviour). -/
structure TabFile where
  alias? : Option String := none
  content : List (String × Value) := []
  namespace_only : Bool := false
  length_check : Bool := true
deriving DecidableEq, Repr

/-- The column names of a table, in insertion order. -/
def contentKeys (t : TabFile) : List String := t.content.map Prod.fst

/-- Python `len()` applied to a stored value: defined for arrays,
a `TypeError` for scalars, `None` and other objects. -/
def pyLen : Value → Except ThreshErr Nat
  | .arr l => .ok l.length
  | _ => .error .lenTypeError

/-- The alias validation of `TabularFile.__init__`: a non-absent alias
must not be a Python keyword and must be an identifier. -/
def checkAlias : Option String → Except ThreshErr Unit
  | none => .ok ()
  | some a =>
      if a ∈ pythonKeywords then .error (.invalidAlias a)
      else if ¬ isPyIdentifier a then .error (.invalidAlias a)
      else .ok ()

/-- The length validation of `TabularFile.__init__`: when `length_check`
is set and the content is non-empty, take `len` of every column (a
`TypeError` for any non-array value, raised while building the length
list) and require all lengths equal (`IndexError` otherwise). -/
def checkLengths (content : List (String × Value)) (length_check : Bool) :
    Except ThreshErr Unit :=
  if length_check ∧ content ≠ [] then
    match content.mapM (fun p => pyLen p.2) with
    | .error e => .error e
    | .ok lens => if lens.dedup.length ≠ 1 then .error .unevenLengths else .ok ()
  else .ok ()

/-- `TabularFile.__init__`: alias validation first, then the length
validation, then the constructed table. -/
def mkTabularFile (content : List (String × Value)) (al : Option String)
    (namespace_only : Bool) (length_check : Bool) :
    Except ThreshErr TabFile :=
  match checkAlias al with
  | .error e => .error e
  | .ok _ =>
      match checkLengths content length_check with
      | .error e => .error e
      | .ok _ =>
          .ok { alias? := al, content := content,
                namespace_only := namespace_only,
                length_check := length_check }

/-! ### The namespace resolver (current revision, `thresh/__init__.py`) -/

/-- First loop of `verify_no_naming_collisions`: collect the aliases,
raising on a repeated alias. -/
def collectAliasesAux (acc : Finset String) :
    List TabFile → Except ThreshErr (Finset String)
  | [] => .ok acc
  | t :: ts =>
      match t.alias? with
      | none => collectAliasesAux acc ts
      | some a =>
          if a ∈ acc then .error (.duplicateAlias a)
          else collectAliasesAux (insert a acc) ts

/-- The mutable state of the second loop of
`verify_no_naming_collisions`. -/
structure ResolveState where
  column_names : Finset String
  aliased_column_names : Finset String
  ambiguous_requests : Finset String
deriving DecidableEq

/-- The body of the second loop for one column name of one table:
flag the bare name if already seen anywhere, add it, then do the same
for the alias-prefixed name when the table has an alias. -/
def resolveCol (aliases : Finset String) (st : ResolveState)
    (al : Option String) (colname : String) : ResolveState :=
  let amb1 :=
    if colname ∈ aliases ∨ colname ∈ st.column_names ∨
        colname ∈ st.aliased_column_names then
      insert colname st.ambiguous_requests
    else st.ambiguous_requests
  let cols := insert colname st.column_names
  match al with
  | none => ⟨cols, st.aliased_column_names, amb1⟩
  | some a =>
      let acolname := a ++ colname
      let amb2 :=
        if acolname ∈ aliases ∨ acolname ∈ cols ∨
            acolname ∈ st.aliased_column_names then
          insert acolname amb1
        else amb1
      ⟨cols, insert acolname st.aliased_column_names, amb2⟩

/-- The second loop over one table. -/
def resolveTable (aliases : Finset String) (st : ResolveState)
    (t : TabFile) : ResolveState :=
  t.content.foldl (fun s p => resolveCol aliases s t.alias? p.1) st

/-- `verify_no_naming_collisions` of `thresh/__init__.py`: one-pass
cumulative accumulation of the four name sets. -/
def verify_no_naming_collisions (tables : List TabFile) :
    Except ThreshErr (Finset String × Finset String × Finset String × Finset String) := do
  let aliases ← collectAliasesAux ∅ tables
  let st := tables.foldl (resolveTable aliases) ⟨∅, ∅, ∅⟩
  .ok (aliases, st.column_names, st.aliased_column_names, st.ambiguous_requests)

/-! ### The namespace resolver (older revision, `thresh.py`) -/

/-- The body of the old gathering loop for one column: add the bare
name, and the alias-prefixed name when the table has an alias. -/
def oldColStep (al : Option String)
    (s : Finset String × Finset String × Finset String)
    (p : String × Value) : Finset String × Finset String × Finset String :=
  let s1 := (s.1, insert p.1 s.2.1, s.2.2)
  match al with
  | some a => (s1.1, s1.2.1, insert (a ++ p.1) s1.2.2)
  | none => s1

/-- The body of the old gathering loop for one table: add its alias,
then every column. -/
def oldTableStep (s : Finset String × Finset String × Finset String)
    (t : TabFile) : Finset String × Finset String × Finset String :=
  let s1 :=
    match t.alias? with
    | some a => (insert a s.1, s.2.1, s.2.2)
    | none => s
  t.content.foldl (oldColStep t.alias?) s1

/-- The single gathering loop of the old `verify_no_naming_collisions`:
aliases, column names and alias-prefixed names of all tables. -/
def oldGather (tables : List TabFile) :
    Finset String × Finset String × Finset String :=
  tables.foldl oldTableStep (∅, ∅, ∅)

/-- `verify_no_naming_collisions` of the older revision `thresh.py`:
gather the three sets, then compute the ambiguous names as the three
pairwise intersections (never raising). -/
def verify_no_naming_collisions_old (tables : List TabFile) :
    Finset String × Finset String × Finset String × Finset String :=
  let g := oldGather tables
  (g.1, g.2.1, g.2.2,
   (g.1 ∩ g.2.1) ∪ (g.1 ∩ g.2.2) ∪ (g.2.1 ∩ g.2.2))

/-! ### The projection/assembly engine (`cat_control`) -/

/-- `gen_aliases_object`: the `__aliases` object, one entry per aliased
table.  The real object maps each column name to its value; nothing in
the verified paths reads those values, so only the column names are
recorded. -/
def gen_aliases_object (tables : List TabFile) : List (String × List String) :=
  tables.filterMap (fun t => t.alias?.map (fun a => (a, contentKeys t)))

/-- The `input_source` dict of `cat_control`: for every table, every
column whose bare (and, when aliased, alias-prefixed) name is uniquely
resolvable is bound in the evaluation source. -/
def build_input_source (tables : List TabFile) (uniq : Finset String)
    (init : List (String × Value)) : List (String × Value) :=
  tables.foldl
    (fun src t =>
      t.content.foldl
        (fun src p =>
          let src1 := if p.1 ∈ uniq then setKey src p.1 p.2 else src
          match t.alias? with
          | some a =>
              if (a ++ p.1) ∈ uniq then setKey src1 (a ++ p.1) p.2 else src1
          | none => src1)
        src)
    init

/-- Copy all columns of a table into the output, clobber-warning for
each name already present (the whole-table-alias branch). -/
def copyColumns (cols : List (String × Value))
    (st : List (String × Value) × List Warning) :
    List (String × Value) × List Warning :=
  cols.foldl
    (fun st p =>
      (setKey st.1 p.1 p.2,
       if (lookupKey st.1 p.1).isSome then st.2 ++ [.clobber p.1] else st.2))
    st

/-- The body of the token loop of `cat_control`, with its fixed
precedence: ambiguous request, whole-table alias, bare column name,
alias-prefixed column name (note the source compares only the first
character `arg[0]` against the alias and strips one character), `=`
assignment, unresolved. -/
def processArg (aliases colnames acolnames ambig : Finset String)
    (tables : List TabFile) (input_source : List (String × Value))
    (st : List (String × Value) × List Warning) (arg : String) :
    Except ThreshErr (List (String × Value) × List Warning) :=
  if arg ∈ ambig then .error (.ambiguousRequest arg)
  else if arg ∈ aliases then
    match tables.find? (fun t => decide (t.alias? = some arg)) with
    | some t => .ok (copyColumns t.content st)
    | none => .ok st
  else if arg ∈ colnames then
    match tables.find? (fun t => (lookupKey t.content arg).isSome) with
    | some t =>
        match lookupKey t.content arg with
        | some v =>
            .ok (setKey st.1 arg v,
                 if (lookupKey st.1 arg).isSome then st.2 ++ [.clobber arg]
                 else st.2)
        | none => .ok st
    | none => .ok st
  else if arg ∈ acolnames then
    match tables.find? (fun t => decide (t.alias? = some (arg.take 1))) with
    | some t =>
        match lookupKey t.content (arg.drop 1) with
        | some v =>
            .ok (setKey st.1 (arg.drop 1) v,
                 if (lookupKey st.1 (arg.drop 1)).isSome then
                   st.2 ++ [.clobber (arg.drop 1)]
                 else st.2)
        | none => .error (.keyError (arg.drop 1))
    | none => .ok st
  else if containsChar arg '=' then
    let pr := splitFirstChars '=' arg.data
    let hd := pyStrip (String.mk pr.1)
    let eval_str := pyStrip (String.mk pr.2)
    if hd = "" then .error (.emptyLabel arg)
    else if eval_str = "" then .error (.emptyExpression arg)
    else do
      let s ← eval_from_dict_str (dictUpdate input_source st.1) eval_str
      match s with
      | .pynone =>
          if (lookupKey st.1 hd).isSome then
            .ok (delKey st.1 hd, st.2 ++ [.remove hd])
          else .error (.removeNotFound hd)
      | v =>
          .ok (setKey st.1 hd v,
               if (lookupKey st.1 hd).isSome then st.2 ++ [.clobber hd]
               else st.2)
  else .error (.unresolvedToken arg)

/-- The implicit full listing used when no tokens are given: every
column of every non-namespace-only table, in table order. -/
def fullListing (tables : List TabFile) : List String :=
  tables.flatMap (fun t => if t.namespace_only then [] else contentKeys t)

/-- `cat_control` up to (but not including) the construction of the
output `TabularFile`: resolve the namespace, build `input_source`,
default empty tokens to the full listing, then run the token loop.
Returns the accumulated output, the final merged namespace and the
warnings emitted. -/
def cat_assemble (tables : List TabFile) (args0 : List String) :
    Except ThreshErr
      (List (String × Value) × List (String × Value) × List Warning) := do
  let r ← verify_no_naming_collisions tables
  let aliases := r.1
  let colnames := r.2.1
  let acolnames := r.2.2.1
  let ambig := r.2.2.2
  let uniq := (colnames ∪ acolnames) \ ambig
  let init : List (String × Value) × List Warning :=
    if "__aliases" ∈ (colnames ∪ acolnames ∪ ambig) then
      ([], [Warning.generic "detected column named __aliases"])
    else
      ([("__aliases", Value.aliasesObj (gen_aliases_object tables))], [])
  let input_source := build_input_source tables uniq init.1
  let args := if args0 = [] then fullListing tables else args0
  let st ← args.foldlM
    (processArg aliases colnames acolnames ambig tables input_source)
    ([], init.2)
  .ok (st.1, dictUpdate input_source st.1, st.2)

/-- `cat_control` of `thresh/__init__.py`: the token loop followed by
the construction of the output table (with the default
`length_check = true`). -/
def cat_control (tables : List TabFile) (args : List String) :
    Except ThreshErr (TabFile × List (String × Value) × List Warning) := do
  let r ← cat_assemble tables args
  let tf ← mkTabularFile r.1 none false true
  .ok (tf, r.2.1, r.2.2)

/-! ### The fixed-width text renderer (`as_text`) -/

/-- The minimum field width of the renderer: the length of the longest
formatted double, written as the source writes it. -/
def len_biggest_number : Nat :=
  ("+1." ++ String.mk (List.replicate 17 '0') ++ "e+301").length

/-- The length of the longest column header. -/
def maxKeyLen (m : List (String × Value)) : Nat :=
  m.foldl (fun acc p => max acc p.1.length) 0

/-- Right-align a string in a field of `w` characters, space-filled
(no truncation), as Python's width format specifier does. -/
def leftPad (w : Nat) (s : String) : String :=
  String.mk (List.replicate (w - s.length) ' ') ++ s

/-- Python's `delimiter.join`: the delimiter goes between adjacent
fields. -/
def joinWith (d : String) : List String → String
  | [] => ""
  | [x] => x
  | x :: y :: xs => x ++ d ++ joinWith d (y :: xs)

/-- Decimal digit count, fuelled so that it reduces in the kernel. -/
def digitsAux : ℕ → ℕ → ℕ
  | 0, _ => 0
  | fuel + 1, n => if n = 0 then 0 else digitsAux fuel (n / 10) + 1

/-- The number of decimal digits of `n` (0 for 0). -/
def digits10 (n : ℕ) : ℕ := digitsAux n n

/-- Floor of the base-10 logarithm of the positive rational `a / b`. -/
def floorLog10 (a b : ℕ) : ℤ :=
  let la := digits10 a - 1
  let lb := digits10 b - 1
  if lb ≤ la then
    (if b * 10 ^ (la - lb) ≤ a then (la - lb : ℤ) else (la - lb : ℤ) - 1)
  else
    (if b ≤ a * 10 ^ (lb - la) then -((lb - la : ℕ) : ℤ)
     else -((lb - la : ℕ) : ℤ) - 1)

/-- Round `a / b` to the nearest integer, ties to even (the rounding of
Python's float formatting). -/
def roundHalfEven (a b : ℕ) : ℕ :=
  let n := a / b
  let r := a % b
  if 2 * r < b then n
  else if b < 2 * r then n + 1
  else if n % 2 = 0 then n else n + 1

/-- The exponent digits of the scientific format: at least two digits,
zero-padded. -/
def expDigits (h : ℕ) : String :=
  if h < 10 then "0" ++ toString h else toString h

/-- Assemble a scientific-notation string from a sign, an 18-digit
scaled mantissa `m` (the value is `m / 10^17`) and a decimal
exponent. -/
def sciParts (neg : Bool) (m : ℕ) (e : ℤ) : String :=
  (if neg then "-" else "+") ++
  String.mk [Nat.digitChar (m / 10 ^ 17 % 10)] ++ "." ++
  String.mk ((List.range 17).map (fun i => Nat.digitChar (m / 10 ^ (16 - i) % 10))) ++
  "e" ++ (if e < 0 then "-" else "+") ++ expDigits e.natAbs

/-- Scale `a / b` by `10 ^ (17 - e)`, as a fraction of naturals. -/
def scaledFraction (a b : ℕ) (e : ℤ) : ℕ × ℕ :=
  if e ≤ 17 then (a * 10 ^ (17 - e).toNat, b) else (a, b * 10 ^ (e - 17).toNat)

/-- The `"{0:+.17e}"` float format of the renderer, idealized to exact
rationals: sign-prefixed scientific notation with 17 digits after the
decimal point, round-half-even, exponent of at least two digits. -/
def fmtSci (q : ℚ) : String :=
  if q = 0 then sciParts false 0 0
  else
    let a := q.num.natAbs
    let b := q.den
    let e := floorLog10 a b
    let p := scaledFraction a b e
    let m := roundHalfEven p.1 p.2
    if m = 10 ^ 18 then sciParts (decide (q < 0)) (10 ^ 17) (e + 1)
    else sciParts (decide (q < 0)) m e

/-- Indexing a stored value (`column[idx]`): only arrays support it. -/
def getIdx (v : Value) (i : Nat) : Except ThreshErr ℚ :=
  match v with
  | .arr l =>
      match l.get? i with
      | some q => .ok q
      | none => .error .indexError
  | _ => .error .lenTypeError

/-- A best-effort JSON rendering of a number (the `json.dumps` branch
of `as_text`; numeric rendering idealized to rationals, never exercised
by the verified properties). -/
def jsonNum (q : ℚ) : String :=
  toString q.num ++ (if q.den = 1 then "" else "/" ++ toString q.den)

/-- A best-effort JSON rendering of one stored value. -/
def jsonValue : Value → String
  | .num q => jsonNum q
  | .arr l => "[" ++ joinWith ", " (l.map jsonNum) ++ "]"
  | _ => "null"

/-- JSON rendering of the whole content mapping. -/
def jsonDumps (m : List (String × Value)) : String :=
  "\x7b" ++
  joinWith ", " (m.map (fun p => "\x22" ++ p.1 ++ "\x22: " ++ jsonValue p.2)) ++
  "\x7d"

/-- The line list built by `TabularFile.as_text` for a length-checked
table: the header line (each header right-aligned in the computed
width), then one line per row of the first column, each value formatted
in sign-prefixed 17-digit scientific notation, fields joined by the
delimiter. -/
def asTextLines (t : TabFile) (d : String) : Except ThreshErr (List String) :=
  if t.content = [] then .error .emptyContent
  else
    let w := max len_biggest_number (maxKeyLen t.content) + 1
    let headerLine := joinWith d (t.content.map (fun p => leftPad w p.1))
    do
      let n0 ← pyLen (t.content.headD ("", Value.pynone)).2
      let dataLines ← (List.range n0).mapM (fun i => do
          let fields ← t.content.mapM (fun p => do
              let q ← getIdx p.2 i
              pure (leftPad w (fmtSci q)))
          pure (joinWith d fields))
      .ok (headerLine :: dataLines)

/-- `TabularFile.as_text`: the JSON branch for non-length-checked
tables, else the fixed-width rendering with a trailing newline. -/
def as_text (t : TabFile) (d : String) : Except ThreshErr String :=
  if t.length_check = false then .ok (jsonDumps t.content)
  else (asTextLines t d).map (fun ls => joinWith "\n" ls ++ "\n")

/-- Decidable equality for `Except`, so that concrete runs of the
embedded functions can be checked by `decide`. -/
instance instDecEqExcept {e' a' : Type} [DecidableEq e'] [DecidableEq a'] :
    DecidableEq (Except e' a') := fun x y =>
  match x, y with
  | .error e1, .error e2 =>
      if h : e1 = e2 then isTrue (congrArg Except.error h)
      else isFalse (fun hh => h (Except.error.inj hh))
  | .ok v1, .ok v2 =>
      if h : v1 = v2 then isTrue (congrArg Except.ok h)
      else isFalse (fun hh => h (Except.ok.inj hh))
  | .error _, .ok _ => isFalse (fun hh => Except.noConfusion hh)
  | .ok _, .error _ => isFalse (fun hh => Except.noConfusion hh)

/-! ### Association-list lemmas -/

@[simp]
theorem lookupKey_nil (k : String) : lookupKey [] k = none := rfl

theorem lookupKey_cons (a : String) (v : Value) (m : List (String × Value))
    (k : String) :
    lookupKey ((a, v) :: m) k = if a = k then some v else lookupKey m k := by
  by_cases h : a = k
  · simp [lookupKey, List.find?_cons_of_pos, h]
  · simp only [lookupKey, h, if_false]
    rw [List.find?_cons_of_neg]
    simp [h]

@[simp]
theorem keysOf_nil : keysOf [] = [] := rfl

@[simp]
theorem keysOf_cons (p : String × Value) (m : List (String × Value)) :
    keysOf (p :: m) = p.1 :: keysOf m := rfl

theorem lookupKey_isSome_iff (m : List (String × Value)) (k : String) :
    (lookupKey m k).isSome = true ↔ k ∈ keysOf m := by
  induction m with
  | nil => simp
  | cons p rest ih =>
    obtain ⟨a, v⟩ := p
    rw [lookupKey_cons]
    by_cases h : a = k
    · subst h
      simp
    · rw [if_neg h]
      simp only [keysOf_cons, List.mem_cons, ih]
      constructor
      · exact Or.inr
      · rintro (hk | hk)
        · exact absurd hk.symm h
        · exact hk

theorem lookupKey_eq_none_iff (m : List (String × Value)) (k : String) :
    lookupKey m k = none ↔ k ∉ keysOf m := by
  rw [← lookupKey_isSome_iff]
  cases lookupKey m k <;> simp

theorem keysOf_setKey (m : List (String × Value)) (k : String) (v : Value) :
    keysOf (setKey m k v) =
      if k ∈ keysOf m then keysOf m else keysOf m ++ [k] := by
  induction m with
  | nil => simp [setKey]
  | cons p rest ih =>
    obtain ⟨b, w⟩ := p
    by_cases h : b = k
    · subst h
      simp [setKey]
    · rw [show setKey ((b, w) :: rest) k v = (b, w) :: setKey rest k v by
        simp [setKey, h]]
      simp only [keysOf_cons, ih, List.mem_cons]
      by_cases hm : k ∈ keysOf rest
      · simp [hm, Ne.symm h]
      · simp [hm, Ne.symm h]

theorem mem_keysOf_setKey (m : List (String × Value)) (k a : String)
    (v : Value) : a ∈ keysOf (setKey m k v) ↔ a = k ∨ a ∈ keysOf m := by
  rw [keysOf_setKey]
  by_cases hm : k ∈ keysOf m
  · rw [if_pos hm]
    constructor
    · exact Or.inr
    · rintro (rfl | h)
      · exact hm
      · exact h
  · rw [if_neg hm]
    rw [List.mem_append]
    simp only [List.mem_singleton]
    tauto

theorem mem_keysOf_dictUpdate (base upd : List (String × Value)) (a : String) :
    a ∈ keysOf (dictUpdate base upd) ↔ a ∈ keysOf base ∨ a ∈ keysOf upd := by
  induction upd generalizing base with
  | nil => simp [dictUpdate]
  | cons p rest ih =>
    have hstep : dictUpdate base (p :: rest) =
        dictUpdate (setKey base p.1 p.2) rest := rfl
    rw [hstep, ih, mem_keysOf_setKey]
    simp only [keysOf_cons, List.mem_cons]
    tauto

/-! ### Evaluator lemmas -/

theorem broadcastOp_ne_undefined (f : ℚ → ℚ → ℚ) (x y : Value) (n : String) :
    broadcastOp f x y ≠ .error (.undefinedName n) := by
  cases x <;> cases y <;> simp [broadcastOp]
  intro h
  split at h
  · simp at h
  · split at h <;> simp at h

/-- If evaluation fails with a `NameError`, the failing name is a free
variable of the expression and is unbound in the environment. -/
theorem evalExpr_undefinedName (env : List (String × Value)) (e : Expr)
    (n : String) (h : evalExpr env e = .error (.undefinedName n)) :
    n ∈ freeVars e ∧ lookupKey env n = none := by
  induction e with
  | lit q => simp [evalExpr] at h
  | noneLit => simp [evalExpr] at h
  | name s =>
    revert h
    simp only [evalExpr]
    cases hl : lookupKey env s with
    | some v => simp
    | none =>
      intro h
      have hn : s = n := by simpa using h
      subst hn
      exact ⟨by simp [freeVars], hl⟩
  | add a b iha ihb =>
    revert h
    simp only [evalExpr, bind, Except.bind]
    cases ha : evalExpr env a with
    | error ea =>
      intro h
      have : ea = .undefinedName n := by simpa using h
      subst this
      have := iha ha
      exact ⟨by simp [freeVars]; exact Or.inl this.1, this.2⟩
    | ok va =>
      cases hb : evalExpr env b with
      | error eb =>
        intro h
        have : eb = .undefinedName n := by simpa using h
        subst this
        have := ihb hb
        exact ⟨by simp [freeVars]; exact Or.inr this.1, this.2⟩
      | ok vb =>
        intro h
        exact absurd h (broadcastOp_ne_undefined _ _ _ _)
  | sub a b iha ihb =>
    revert h
    simp only [evalExpr, bind, Except.bind]
    cases ha : evalExpr env a with
    | error ea =>
      intro h
      have : ea = .undefinedName n := by simpa using h
      subst this
      have := iha ha
      exact ⟨by simp [freeVars]; exact Or.inl this.1, this.2⟩
    | ok va =>
      cases hb : evalExpr env b with
      | error eb =>
        intro h
        have : eb = .undefinedName n := by simpa using h
        subst this
        have := ihb hb
        exact ⟨by simp [freeVars]; exact Or.inr this.1, this.2⟩
      | ok vb =>
        intro h
        exact absurd h (broadcastOp_ne_undefined _ _ _ _)
  | mul a b iha ihb =>
    revert h
    simp only [evalExpr, bind, Except.bind]
    cases ha : evalExpr env a with
    | error ea =>
      intro h
      have : ea = .undefinedName n := by simpa using h
      subst this
      have := iha ha
      exact ⟨by simp [freeVars]; exact Or.inl this.1, this.2⟩
    | ok va =>
      cases hb : evalExpr env b with
      | error eb =>
        intro h
        have : eb = .undefinedName n := by simpa using h
        subst this
        have := ihb hb
        exact ⟨by simp [freeVars]; exact Or.inr this.1, this.2⟩
      | ok vb =>
        intro h
        exact absurd h (broadcastOp_ne_undefined _ _ _ _)
  | attr e field ih =>
    revert h
    simp only [evalExpr, bind, Except.bind]
    cases he : evalExpr env e with
    | error ee =>
      intro h
      have : ee = .undefinedName n := by simpa using h
      subst this
      have := ih he
      exact ⟨by simpa [freeVars] using this.1, this.2⟩
    | ok ve =>
      intro h
      cases ve <;> simp at h
      split at h <;> simp at h

/-- If `eval_from_dict` fails with a `NameError`, the failing name is a
free variable absent from both the vocabulary and the source. -/
theorem eval_from_dict_undefinedName (source : List (String × Value))
    (e : Expr) (n : String)
    (h : eval_from_dict source e = .error (.undefinedName n)) :
    n ∈ freeVars e ∧ n ∉ keysOf safe_dict ∧ n ∉ keysOf source := by
  simp only [eval_from_dict] at h
  split at h
  · obtain ⟨hfv, hl⟩ := evalExpr_undefinedName _ _ _ h
    rw [lookupKey_eq_none_iff, mem_keysOf_dictUpdate] at hl
    push_neg at hl
    exact ⟨hfv, hl.1, hl.2⟩
  · simp at h

/-! ### Claim C1: the evaluator's namespace -/

/-- The C1 claim, formalized: any builtin object obtainable by
evaluating an expression is named in the fixed vocabulary or in the
caller-supplied source — i.e. nothing outside the closed vocabulary and
the source mapping is reachable. -/
def evalNamespaceClosed : Prop :=
  ∀ (source : List (String × Value)) (e : Expr) (s : String),
    eval_from_dict source e = .ok (.builtin s) →
    s ∈ keysOf safe_dict ∨ s ∈ keysOf source

/-- C1, counterexample: the vocabulary entry `"np"` binds the whole
numpy module, through which the expression `np.load` — a filesystem-
reading function named neither in the vocabulary nor in the (empty)
source — evaluates successfully.  The sandbox property is false. -/
theorem c1_counterexample : ¬ evalNamespaceClosed := by
  intro h
  have := h [] (.attr (.name "np") "load") "np.load" (by decide)
  revert this
  decide

/-- C1, amended: the evaluation namespace itself binds exactly the
vocabulary and source names (first conjunct), but the vocabulary entry
`"np"` exposes the entire numpy module, so attribute access reaches
numpy members — including filesystem-I/O functions such as `np.load` —
that are named in neither the vocabulary nor the source (remaining
conjuncts); the claimed no-I/O closed sandbox does not hold. -/
theorem c1_namespace_amended :
    (∀ (source : List (String × Value)) (s : String) (v : Value),
       lookupKey (dictUpdate safe_dict source) s = some v →
       s ∈ keysOf safe_dict ∨ s ∈ keysOf source)
    ∧ eval_from_dict [] (.attr (.name "np") "load") = .ok (.builtin "np.load")
    ∧ "np.load" ∉ keysOf safe_dict
    ∧ "load" ∈ npFileIONames := by
  refine ⟨?_, by decide, by decide, by decide⟩
  intro source s v h
  have : (lookupKey (dictUpdate safe_dict source) s).isSome = true := by
    rw [h]; rfl
  rw [lookupKey_isSome_iff, mem_keysOf_dictUpdate] at this
  exact this

/-- Witness for the hypothesis-bearing conjunct of the amended C1
theorem, at a concrete environment lookup. -/
theorem c1_namespace_amended_witness :
    "A" ∈ keysOf safe_dict ∨ "A" ∈ keysOf [("A", Value.num 1)] :=
  c1_namespace_amended.1 [("A", Value.num 1)] "A" (Value.num 1) (by decide)

/-! ### Claim C2: `UndefinedName` iff an absent name -/

/-- C2, counterexample: the claimed equivalence "fails with
`UndefinedName` iff the expression references a name absent from both
vocabulary and source" is false: for source `{a: [1,2], b: [1,2,3]}`
and expression `a+b+Z`, the name `Z` is absent, yet evaluation fails
with the broadcast `LengthMismatch` raised before `Z` is ever looked
up. -/
theorem c2_counterexample :
    ¬ (∀ (source : List (String × Value)) (e : Expr),
        (∃ n, eval_from_dict source e = .error (.undefinedName n)) ↔
        (∃ n, n ∈ freeVars e ∧ n ∉ keysOf safe_dict ∧ n ∉ keysOf source)) := by
  intro h
  have h2 := (h [("a", .arr [1, 2]), ("b", .arr [1, 2, 3])]
      (.add (.add (.name "a") (.name "b")) (.name "Z"))).mpr
      ⟨"Z", by decide, by decide, by decide⟩
  obtain ⟨n, hn⟩ := h2
  rw [show eval_from_dict [("a", Value.arr [1, 2]), ("b", Value.arr [1, 2, 3])]
        (.add (.add (.name "a") (.name "b")) (.name "Z"))
      = .error (.lengthMismatch 2 3) by decide] at hn
  simp at hn

/-- C2, amended: a `NameError` implies the failing name is referenced
by the expression and absent from both vocabulary and source (but not
conversely: an earlier fault can pre-empt the lookup); and Scenario F
holds: with source `{A: [8,5,8,2,-3]}`, `D+Z` fails with `UndefinedName`
and `A+1` evaluates to `[9,6,9,3,-2]`. -/
theorem c2_undefined_amended :
    (∀ (source : List (String × Value)) (e : Expr) (n : String),
       eval_from_dict source e = .error (.undefinedName n) →
       n ∈ freeVars e ∧ n ∉ keysOf safe_dict ∧ n ∉ keysOf source)
    ∧ eval_from_dict [("A", Value.arr [8, 5, 8, 2, -3])]
        (.add (.name "D") (.name "Z")) = .error (.undefinedName "D")
    ∧ eval_from_dict [("A", Value.arr [8, 5, 8, 2, -3])]
        (.add (.name "A") (.lit 1)) = .ok (.arr [9, 6, 9, 3, -2]) := by
  refine ⟨fun source e n h => eval_from_dict_undefinedName source e n h,
    by decide, ?_⟩
  simp only [eval_from_dict]
  rw [if_pos (by decide)]
  simp only [evalExpr, bind, Except.bind]
  rw [show lookupKey (dictUpdate safe_dict [("A", Value.arr [8, 5, 8, 2, -3])]) "A"
      = some (Value.arr [8, 5, 8, 2, -3]) by decide]
  simp only [broadcastOp]
  norm_num

/-- Witness for the hypothesis-bearing conjunct of the amended C2
theorem, at a concrete failing evaluation. -/
theorem c2_undefined_amended_witness :
    "Q" ∈ freeVars (.name "Q") ∧ "Q" ∉ keysOf safe_dict ∧
      "Q" ∉ keysOf [] :=
  c2_undefined_amended.1 [] (.name "Q") "Q" (by decide)

/-! ### The resolver's contribution stream -/

/-- One contribution of a table to the resolver's namespace: a bare
column name or an alias-prefixed column name. -/
inductive Contrib where
  | col (s : String)
  | acol (s : String)
deriving DecidableEq, Repr

/-- The contributions of one table, in the order the resolver's inner
loop sees them. -/
def tableContribs (t : TabFile) : List Contrib :=
  t.content.flatMap (fun p =>
    match t.alias? with
    | none => [.col p.1]
    | some a => [.col p.1, .acol (a ++ p.1)])

/-- The contributions of a table list, in resolver order. -/
def contribs (tables : List TabFile) : List Contrib :=
  tables.flatMap tableContribs

/-- One step of the resolver's accumulation, at the granularity of a
single contribution. -/
def contribStep (aliases : Finset String) (st : ResolveState) :
    Contrib → ResolveState
  | .col c =>
      ⟨insert c st.column_names, st.aliased_column_names,
       if c ∈ aliases ∨ c ∈ st.column_names ∨ c ∈ st.aliased_column_names
       then insert c st.ambiguous_requests
       else st.ambiguous_requests⟩
  | .acol k =>
      ⟨st.column_names, insert k st.aliased_column_names,
       if k ∈ aliases ∨ k ∈ st.column_names ∨ k ∈ st.aliased_column_names
       then insert k st.ambiguous_requests
       else st.ambiguous_requests⟩

/-- The aliases of a table list, in order. -/
def aliasNames (tables : List TabFile) : List String :=
  tables.filterMap (·.alias?)

/-- All bare column names of a table list, with multiplicity. -/
def colNames (tables : List TabFile) : List String :=
  tables.flatMap contentKeys

/-- All alias-prefixed column names of a table list, with
multiplicity. -/
def acolNames (tables : List TabFile) : List String :=
  tables.flatMap (fun t =>
    match t.alias? with
    | none => []
    | some a => (contentKeys t).map (fun c => a ++ c))

/-- Occurrence count of a contribution in a stream. -/
def countC : List Contrib → Contrib → ℕ
  | [], _ => 0
  | c :: L, d => countC L d + if c = d then 1 else 0

/-- Occurrence count of a string in a list. -/
def countS : List String → String → ℕ
  | [], _ => 0
  | s :: L, x => countS L x + if s = x then 1 else 0

/-- How many times a table list contributes the name `x`, across all
three categories (alias, bare column name, alias-prefixed column
name). -/
def nameCount (tables : List TabFile) (x : String) : ℕ :=
  countS (aliasNames tables) x + countS (colNames tables) x +
    countS (acolNames tables) x

theorem countC_append (L1 L2 : List Contrib) (d : Contrib) :
    countC (L1 ++ L2) d = countC L1 d + countC L2 d := by
  induction L1 with
  | nil => simp [countC]
  | cons c L ih => simp [countC, ih]; omega

theorem countS_append (L1 L2 : List String) (x : String) :
    countS (L1 ++ L2) x = countS L1 x + countS L2 x := by
  induction L1 with
  | nil => simp [countS]
  | cons s L ih => simp [countS, ih]; omega

theorem mem_iff_countC_pos (L : List Contrib) (d : Contrib) :
    d ∈ L ↔ 1 ≤ countC L d := by
  induction L with
  | nil => simp [countC]
  | cons c L ih =>
    rw [List.mem_cons, ih]
    by_cases h : c = d
    · subst h
      simp [countC]
    · simp only [countC, if_neg h]
      constructor
      · rintro (rfl | hh)
        · exact absurd rfl h
        · omega
      · intro hh
        right
        omega

theorem mem_iff_countS_pos (L : List String) (x : String) :
    x ∈ L ↔ 1 ≤ countS L x := by
  induction L with
  | nil => simp [countS]
  | cons s L ih =>
    rw [List.mem_cons, ih]
    by_cases h : s = x
    · subst h
      simp [countS]
    · simp only [countS, if_neg h]
      constructor
      · rintro (rfl | hh)
        · exact absurd rfl h
        · omega
      · intro hh
        right
        omega

theorem countS_of_nodup (L : List String) (x : String) (h : L.Nodup) :
    countS L x = if x ∈ L then 1 else 0 := by
  induction L with
  | nil => simp [countS]
  | cons s L ih =>
    have hs : s ∉ L := (List.nodup_cons.mp h).1
    have ih' := ih (List.nodup_cons.mp h).2
    by_cases hx : s = x
    · subst hx
      simp [countS, ih', hs]
    · simp only [countS, if_neg hx, ih', List.mem_cons]
      by_cases hm : x ∈ L
      · simp [hm, Ne.symm hx]
      · simp [hm, Ne.symm hx]

/-! ### Identifying the resolver's loop with the contribution stream -/

theorem resolveCol_eq_steps (A : Finset String) (st : ResolveState)
    (al : Option String) (c : String) :
    resolveCol A st al c =
      match al with
      | none => contribStep A st (.col c)
      | some a => contribStep A (contribStep A st (.col c)) (.acol (a ++ c)) := by
  cases al <;> rfl

theorem resolveFold_aux (A : Finset String) (al : Option String)
    (l : List (String × Value)) (st : ResolveState) :
    l.foldl (fun s p => resolveCol A s al p.1) st =
      (l.flatMap (fun p =>
        match al with
        | none => [Contrib.col p.1]
        | some a => [Contrib.col p.1, Contrib.acol (a ++ p.1)])).foldl
        (contribStep A) st := by
  induction l generalizing st with
  | nil => rfl
  | cons p l ih =>
    rw [List.foldl_cons, List.flatMap_cons, List.foldl_append,
      resolveCol_eq_steps]
    cases al with
    | none => exact ih _
    | some a => exact ih _

theorem resolveTable_eq_foldl (A : Finset String) (st : ResolveState)
    (t : TabFile) :
    resolveTable A st t = (tableContribs t).foldl (contribStep A) st :=
  resolveFold_aux A t.alias? t.content st

theorem resolver_fold_eq (A : Finset String) (tables : List TabFile)
    (st : ResolveState) :
    tables.foldl (resolveTable A) st =
      (contribs tables).foldl (contribStep A) st := by
  induction tables generalizing st with
  | nil => rfl
  | cons t ts ih =>
    rw [List.foldl_cons, ih]
    unfold contribs
    rw [List.flatMap_cons, List.foldl_append, resolveTable_eq_foldl]

/-! ### The master invariant of the resolver's accumulation -/

/-- After consuming the stream `L` (with the full alias set `A` known
up front, as in the source), the resolver state records exactly the
contributions seen, and a name is ambiguous precisely when it has been
contributed at least twice (counting its possible occurrence as an
alias). -/
def StreamInv (A : Finset String) (L : List Contrib) (st : ResolveState) :
    Prop :=
  (∀ x, x ∈ st.column_names ↔ Contrib.col x ∈ L) ∧
  (∀ x, x ∈ st.aliased_column_names ↔ Contrib.acol x ∈ L) ∧
  (∀ x, x ∈ st.ambiguous_requests ↔
     2 ≤ (if x ∈ A then 1 else 0) + countC L (.col x) + countC L (.acol x))

theorem streamInv_nil (A : Finset String) :
    StreamInv A [] ⟨∅, ∅, ∅⟩ := by
  refine ⟨by simp, by simp, fun x => ?_⟩
  simp only [Finset.not_mem_empty, false_iff, countC]
  split <;> omega

theorem streamInv_step (A : Finset String) (L : List Contrib)
    (st : ResolveState) (c : Contrib) (h : StreamInv A L st) :
    StreamInv A (L ++ [c]) (contribStep A st c) := by
  obtain ⟨hc, hk, hm⟩ := h
  cases c with
  | col c0 =>
    refine ⟨fun x => ?_, fun x => ?_, fun x => ?_⟩
    · simp only [contribStep, Finset.mem_insert, hc x, List.mem_append,
        List.mem_singleton]
      constructor
      · rintro (rfl | hh)
        · right; rfl
        · exact Or.inl hh
      · rintro (hh | hh)
        · exact Or.inr hh
        · exact Or.inl (Contrib.col.inj hh)
    · simp only [contribStep, hk x, List.mem_append, List.mem_singleton]
      constructor
      · exact Or.inl
      · rintro (hh | hh)
        · exact hh
        · exact absurd hh (by simp)
    · simp only [contribStep]
      rw [countC_append, countC_append]
      by_cases hx : x = c0
      · subst hx
        have e1 : countC [Contrib.col x] (.col x) = 1 := by simp [countC]
        have e2 : countC [Contrib.col x] (.acol x) = 0 := by simp [countC]
        rw [e1, e2]
        have hcond : (x ∈ A ∨ x ∈ st.column_names ∨
            x ∈ st.aliased_column_names) ↔
            1 ≤ (if x ∈ A then 1 else 0) + countC L (.col x) +
              countC L (.acol x) := by
          rw [hc x, hk x, mem_iff_countC_pos, mem_iff_countC_pos]
          by_cases hA : x ∈ A
          · simp [hA]
            omega
          · simp [hA]
            omega
        by_cases hif : x ∈ A ∨ x ∈ st.column_names ∨
            x ∈ st.aliased_column_names
        · rw [if_pos hif]
          rw [hcond] at hif
          constructor
          · intro _
            omega
          · intro _
            exact Finset.mem_insert_self x _
        · rw [if_neg hif]
          rw [hcond] at hif
          push_neg at hif
          rw [hm x]
          omega
      · have e1 : countC [Contrib.col c0] (.col x) = 0 := by
          simp [countC, Ne.symm hx]
        have e2 : countC [Contrib.col c0] (.acol x) = 0 := by
          simp [countC]
        rw [e1, e2]
        have hmem : x ∈ (if c0 ∈ A ∨ c0 ∈ st.column_names ∨
            c0 ∈ st.aliased_column_names
            then insert c0 st.ambiguous_requests
            else st.ambiguous_requests) ↔ x ∈ st.ambiguous_requests := by
          split
          · simp [Finset.mem_insert, hx]
          · exact Iff.rfl
        rw [hmem, hm x]
        omega
  | acol k0 =>
    refine ⟨fun x => ?_, fun x => ?_, fun x => ?_⟩
    · simp only [contribStep, hc x, List.mem_append, List.mem_singleton]
      constructor
      · exact Or.inl
      · rintro (hh | hh)
        · exact hh
        · exact absurd hh (by simp)
    · simp only [contribStep, Finset.mem_insert, hk x, List.mem_append,
        List.mem_singleton]
      constructor
      · rintro (rfl | hh)
        · right; rfl
        · exact Or.inl hh
      · rintro (hh | hh)
        · exact Or.inr hh
        · exact Or.inl (Contrib.acol.inj hh)
    · simp only [contribStep]
      rw [countC_append, countC_append]
      by_cases hx : x = k0
      · subst hx
        have e1 : countC [Contrib.acol x] (.col x) = 0 := by simp [countC]
        have e2 : countC [Contrib.acol x] (.acol x) = 1 := by simp [countC]
        rw [e1, e2]
        have hcond : (x ∈ A ∨ x ∈ st.column_names ∨
            x ∈ st.aliased_column_names) ↔
            1 ≤ (if x ∈ A then 1 else 0) + countC L (.col x) +
              countC L (.acol x) := by
          rw [hc x, hk x, mem_iff_countC_pos, mem_iff_countC_pos]
          by_cases hA : x ∈ A
          · simp [hA]
            omega
          · simp [hA]
            omega
        by_cases hif : x ∈ A ∨ x ∈ st.column_names ∨
            x ∈ st.aliased_column_names
        · rw [if_pos hif]
          rw [hcond] at hif
          constructor
          · intro _
            omega
          · intro _
            exact Finset.mem_insert_self x _
        · rw [if_neg hif]
          rw [hcond] at hif
          push_neg at hif
          rw [hm x]
          omega
      · have e1 : countC [Contrib.acol k0] (.col x) = 0 := by
          simp [countC]
        have e2 : countC [Contrib.acol k0] (.acol x) = 0 := by
          simp [countC, Ne.symm hx]
        rw [e1, e2]
        have hmem : x ∈ (if k0 ∈ A ∨ k0 ∈ st.column_names ∨
            k0 ∈ st.aliased_column_names
            then insert k0 st.ambiguous_requests
            else st.ambiguous_requests) ↔ x ∈ st.ambiguous_requests := by
          split
          · simp [Finset.mem_insert, hx]
          · exact Iff.rfl
        rw [hmem, hm x]
        omega

theorem streamInv_fold (A : Finset String) (L2 : List Contrib) :
    ∀ (L1 : List Contrib) (st : ResolveState), StreamInv A L1 st →
      StreamInv A (L1 ++ L2) (L2.foldl (contribStep A) st) := by
  induction L2 with
  | nil =>
    intro L1 st h
    simpa using h
  | cons c L2 ih =>
    intro L1 st h
    have h1 := streamInv_step A L1 st c h
    have h2 := ih (L1 ++ [c]) _ h1
    simpa [List.append_assoc] using h2

/-! ### Alias collection -/

theorem collectAliasesAux_cons_none (acc : Finset String) (t : TabFile)
    (ts : List TabFile) (h : t.alias? = none) :
    collectAliasesAux acc (t :: ts) = collectAliasesAux acc ts := by
  rw [collectAliasesAux, h]

theorem collectAliasesAux_cons_some (acc : Finset String) (t : TabFile)
    (ts : List TabFile) (a : String) (h : t.alias? = some a) :
    collectAliasesAux acc (t :: ts) =
      if a ∈ acc then .error (.duplicateAlias a)
      else collectAliasesAux (insert a acc) ts := by
  rw [collectAliasesAux, h]

theorem collectAliasesAux_ok_inv (ts : List TabFile) :
    ∀ (acc A : Finset String), collectAliasesAux acc ts = .ok A →
      (aliasNames ts).Nodup ∧ (∀ a ∈ aliasNames ts, a ∉ acc) ∧
      A = acc ∪ (aliasNames ts).toFinset := by
  induction ts with
  | nil =>
    intro acc A h
    simp only [collectAliasesAux, Except.ok.injEq] at h
    subst h
    simp [aliasNames]
  | cons t ts ih =>
    intro acc A h
    cases hal : t.alias? with
    | none =>
      rw [collectAliasesAux_cons_none acc t ts hal] at h
      have := ih acc A h
      rw [show aliasNames (t :: ts) = aliasNames ts by
        simp [aliasNames, List.filterMap_cons, hal]]
      exact this
    | some a =>
      rw [collectAliasesAux_cons_some acc t ts a hal] at h
      by_cases hmem : a ∈ acc
      · rw [if_pos hmem] at h
        exact absurd h (by simp)
      · rw [if_neg hmem] at h
        obtain ⟨hnd, hdisj, hA⟩ := ih (insert a acc) A h
        have hnames : aliasNames (t :: ts) = a :: aliasNames ts := by
          simp [aliasNames, List.filterMap_cons, hal]
        rw [hnames]
        refine ⟨List.nodup_cons.mpr ⟨?_, hnd⟩, ?_, ?_⟩
        · intro hmem2
          exact (hdisj a hmem2) (Finset.mem_insert_self a acc)
        · intro b hb
          rcases List.mem_cons.mp hb with rfl | hb
          · exact hmem
          · intro hbacc
            exact (hdisj b hb) (Finset.mem_insert_of_mem hbacc)
        · rw [hA, List.toFinset_cons, Finset.insert_union,
            Finset.union_insert]

theorem collectAliasesAux_ok (ts : List TabFile) :
    ∀ (acc : Finset String), (aliasNames ts).Nodup →
      (∀ a ∈ aliasNames ts, a ∉ acc) →
      collectAliasesAux acc ts = .ok (acc ∪ (aliasNames ts).toFinset) := by
  induction ts with
  | nil =>
    intro acc _ _
    simp [collectAliasesAux, aliasNames]
  | cons t ts ih =>
    intro acc hnd hdisj
    cases hal : t.alias? with
    | none =>
      rw [collectAliasesAux_cons_none acc t ts hal]
      have hnames : aliasNames (t :: ts) = aliasNames ts := by
        simp [aliasNames, List.filterMap_cons, hal]
      rw [hnames] at hnd hdisj
      rw [ih acc hnd hdisj, hnames]
    | some a =>
      have hnames : aliasNames (t :: ts) = a :: aliasNames ts := by
        simp [aliasNames, List.filterMap_cons, hal]
      rw [hnames] at hnd hdisj
      have hna : a ∉ aliasNames ts := (List.nodup_cons.mp hnd).1
      have hnd' := (List.nodup_cons.mp hnd).2
      have hacc : a ∉ acc := hdisj a (List.mem_cons_self a _)
      rw [collectAliasesAux_cons_some acc t ts a hal, if_neg hacc]
      have hdisj' : ∀ b ∈ aliasNames ts, b ∉ insert a acc := by
        intro b hb
        rw [Finset.mem_insert]
        rintro (rfl | hbacc)
        · exact hna hb
        · exact hdisj b (List.mem_cons_of_mem _ hb) hbacc
      rw [ih (insert a acc) hnd' hdisj', hnames, List.toFinset_cons,
        Finset.insert_union, Finset.union_insert]

/-! ### Counting contributions by category -/

theorem tableContribs_none (t : TabFile) (h : t.alias? = none) :
    tableContribs t = t.content.flatMap (fun p => [Contrib.col p.1]) := by
  unfold tableContribs
  rw [h]

theorem tableContribs_some (t : TabFile) (a : String) (h : t.alias? = some a) :
    tableContribs t =
      t.content.flatMap (fun p => [Contrib.col p.1, Contrib.acol (a ++ p.1)]) := by
  unfold tableContribs
  rw [h]

theorem countC_batch_col_none (l : List (String × Value)) (x : String) :
    countC (l.flatMap (fun p => [Contrib.col p.1])) (.col x) =
      countS (l.map Prod.fst) x := by
  induction l with
  | nil => simp [countC, countS]
  | cons p l ih =>
    rw [List.flatMap_cons, countC_append, ih, List.map_cons]
    simp only [countC, countS, Contrib.col.injEq]
    omega

theorem countC_batch_col_some (a : String) (l : List (String × Value))
    (x : String) :
    countC (l.flatMap (fun p => [Contrib.col p.1, Contrib.acol (a ++ p.1)]))
      (.col x) = countS (l.map Prod.fst) x := by
  induction l with
  | nil => simp [countC, countS]
  | cons p l ih =>
    rw [List.flatMap_cons, countC_append, ih, List.map_cons]
    simp only [countC, countS, Contrib.col.injEq]
    rw [if_neg (by simp)]
    omega

theorem countC_batch_acol_none (l : List (String × Value)) (x : String) :
    countC (l.flatMap (fun p => [Contrib.col p.1])) (.acol x) = 0 := by
  induction l with
  | nil => simp [countC]
  | cons p l ih =>
    rw [List.flatMap_cons, countC_append, ih]
    simp [countC]

theorem countC_batch_acol_some (a : String) (l : List (String × Value))
    (x : String) :
    countC (l.flatMap (fun p => [Contrib.col p.1, Contrib.acol (a ++ p.1)]))
      (.acol x) = countS ((l.map Prod.fst).map (fun c => a ++ c)) x := by
  induction l with
  | nil => simp [countC, countS]
  | cons p l ih =>
    rw [List.flatMap_cons, countC_append, ih, List.map_cons, List.map_cons]
    simp only [countC, countS]
    have h1 : (if Contrib.col p.1 = Contrib.acol x then (1 : ℕ) else 0) = 0 := by
      simp
    have h2 : (if Contrib.acol (a ++ p.1) = Contrib.acol x then (1 : ℕ) else 0)
        = if a ++ p.1 = x then 1 else 0 := by
      simp
    omega

theorem acolNames_cons_none (t : TabFile) (ts : List TabFile)
    (h : t.alias? = none) : acolNames (t :: ts) = acolNames ts := by
  unfold acolNames
  rw [List.flatMap_cons, h]
  rfl

theorem acolNames_cons_some (t : TabFile) (ts : List TabFile) (a : String)
    (h : t.alias? = some a) :
    acolNames (t :: ts) =
      (contentKeys t).map (fun c => a ++ c) ++ acolNames ts := by
  unfold acolNames
  rw [List.flatMap_cons, h]

theorem countC_contribs_col (tables : List TabFile) (x : String) :
    countC (contribs tables) (.col x) = countS (colNames tables) x := by
  induction tables with
  | nil => simp [contribs, colNames, countC, countS]
  | cons t ts ih =>
    unfold contribs colNames at *
    rw [List.flatMap_cons, List.flatMap_cons, countC_append, countS_append,
      ih]
    congr 1
    cases hal : t.alias? with
    | none =>
      rw [tableContribs_none t hal, countC_batch_col_none]
      rfl
    | some a =>
      rw [tableContribs_some t a hal, countC_batch_col_some]
      rfl

theorem countC_contribs_acol (tables : List TabFile) (x : String) :
    countC (contribs tables) (.acol x) = countS (acolNames tables) x := by
  induction tables with
  | nil => simp [contribs, acolNames, countC, countS]
  | cons t ts ih =>
    unfold contribs at *
    rw [List.flatMap_cons, countC_append, ih]
    cases hal : t.alias? with
    | none =>
      rw [acolNames_cons_none t ts hal, tableContribs_none t hal,
        countC_batch_acol_none]
      omega
    | some a =>
      rw [acolNames_cons_some t ts a hal, tableContribs_some t a hal,
        countC_batch_acol_some, countS_append]
      rfl

/-! ### The resolver characterized -/

/-- What `verify_no_naming_collisions` computes, characterized by
membership and contribution counts: the aliases are exactly the
(duplicate-free) alias list, the two name sets record exactly the
contributed names, and a name is ambiguous precisely when contributed
at least twice across the three categories. -/
theorem verify_spec (tables : List TabFile) (A C K M : Finset String)
    (h : verify_no_naming_collisions tables = .ok (A, C, K, M)) :
    A = (aliasNames tables).toFinset ∧ (aliasNames tables).Nodup ∧
    (∀ x, x ∈ C ↔ x ∈ colNames tables) ∧
    (∀ x, x ∈ K ↔ x ∈ acolNames tables) ∧
    (∀ x, x ∈ M ↔ 2 ≤ nameCount tables x) := by
  unfold verify_no_naming_collisions at h
  cases hc : collectAliasesAux ∅ tables with
  | error e =>
    rw [hc] at h
    exact absurd h (by simp [Bind.bind, Except.bind])
  | ok A' =>
    rw [hc] at h
    simp only [Bind.bind, Except.bind, Except.ok.injEq, Prod.mk.injEq] at h
    obtain ⟨hA, hC, hK, hM⟩ := h
    obtain ⟨hnd, _, hA'⟩ := collectAliasesAux_ok_inv tables ∅ A' hc
    rw [Finset.empty_union] at hA'
    have hInv : StreamInv A' (contribs tables)
        ((contribs tables).foldl (contribStep A') ⟨∅, ∅, ∅⟩) := by
      have := streamInv_fold A' (contribs tables) [] ⟨∅, ∅, ∅⟩
        (streamInv_nil A')
      simpa using this
    rw [resolver_fold_eq] at hC hK hM
    obtain ⟨hic, hik, him⟩ := hInv
    refine ⟨by rw [← hA, hA'], hnd, ?_, ?_, ?_⟩
    · intro x
      rw [← hC, hic x, mem_iff_countC_pos, countC_contribs_col,
        ← mem_iff_countS_pos]
    · intro x
      rw [← hK, hik x, mem_iff_countC_pos, countC_contribs_acol,
        ← mem_iff_countS_pos]
    · intro x
      rw [← hM, him x, countC_contribs_col, countC_contribs_acol]
      unfold nameCount
      have : (if x ∈ A' then 1 else 0) = countS (aliasNames tables) x := by
        rw [countS_of_nodup _ _ hnd, hA']
        by_cases hx : x ∈ (aliasNames tables).toFinset
        · rw [if_pos hx, if_pos (List.mem_toFinset.mp hx)]
        · rw [if_neg hx, if_neg (fun hh => hx (List.mem_toFinset.mpr hh))]
      rw [this]

/-! ### Claim C4: unique contributions stay resolvable -/

/-- C4: for any table list the resolver accepts, a name is in
`ambiguous_requests` exactly when it is contributed more than once
(counting every category — alias, bare column name, alias+column
concatenation — over all tables); so a name contributed exactly once,
from one table in one category, stays resolvable, and a name
contributed twice is ambiguous no matter which table came first. -/
theorem c4_ambiguous_iff_twice (tables : List TabFile)
    (A C K M : Finset String)
    (h : verify_no_naming_collisions tables = .ok (A, C, K, M))
    (x : String) : x ∈ M ↔ 2 ≤ nameCount tables x :=
  (verify_spec tables A C K M h).2.2.2.2 x

/-- Witness for C4 at a concrete table list: `"Ax"` is contributed by
both tables (as a bare column of the second and as the alias-prefixed
first column), hence ambiguous; the resolver run discharges the
hypothesis. -/
theorem c4_ambiguous_iff_twice_witness :
    ("Ax" ∈ ({"Ax"} : Finset String) ↔
      2 ≤ nameCount
        [{ alias? := some "A", content := [("x", Value.arr [1])],
           namespace_only := false, length_check := true },
         { alias? := some "B", content := [("Ax", Value.arr [2])],
           namespace_only := false, length_check := true }] "Ax") :=
  c4_ambiguous_iff_twice _ {"A", "B"} {"x", "Ax"} {"Ax", "BAx"} {"Ax"}
    (by decide) "Ax"

/-! ### Membership in the old resolver's sets -/

theorem oldColStep_fst (al : Option String)
    (s : Finset String × Finset String × Finset String) (p : String × Value) :
    (oldColStep al s p).1 = s.1 := by
  cases al <;> rfl

theorem foldl_oldColStep_fst (al : Option String)
    (l : List (String × Value))
    (s : Finset String × Finset String × Finset String) :
    (l.foldl (oldColStep al) s).1 = s.1 := by
  induction l generalizing s with
  | nil => rfl
  | cons p l ih => rw [List.foldl_cons, ih, oldColStep_fst]

theorem oldColStep_snd1 (al : Option String)
    (s : Finset String × Finset String × Finset String) (p : String × Value) :
    (oldColStep al s p).2.1 = insert p.1 s.2.1 := by
  cases al <;> rfl

theorem mem_foldl_oldColStep_snd1 (al : Option String)
    (l : List (String × Value))
    (s : Finset String × Finset String × Finset String) (x : String) :
    x ∈ (l.foldl (oldColStep al) s).2.1 ↔
      x ∈ s.2.1 ∨ x ∈ l.map Prod.fst := by
  induction l generalizing s with
  | nil => simp
  | cons p l ih =>
    rw [List.foldl_cons, ih]
    rw [oldColStep_snd1]
    simp only [Finset.mem_insert, List.map_cons, List.mem_cons]
    tauto

theorem oldColStep_snd2_none
    (s : Finset String × Finset String × Finset String) (p : String × Value) :
    (oldColStep none s p).2.2 = s.2.2 := rfl

theorem oldColStep_snd2_some (a : String)
    (s : Finset String × Finset String × Finset String) (p : String × Value) :
    (oldColStep (some a) s p).2.2 = insert (a ++ p.1) s.2.2 := rfl

theorem foldl_oldColStep_snd2_none (l : List (String × Value))
    (s : Finset String × Finset String × Finset String) :
    (l.foldl (oldColStep none) s).2.2 = s.2.2 := by
  induction l generalizing s with
  | nil => rfl
  | cons p l ih => rw [List.foldl_cons, ih, oldColStep_snd2_none]

theorem mem_foldl_oldColStep_snd2_some (a : String)
    (l : List (String × Value))
    (s : Finset String × Finset String × Finset String) (x : String) :
    x ∈ (l.foldl (oldColStep (some a)) s).2.2 ↔
      x ∈ s.2.2 ∨ x ∈ (l.map Prod.fst).map (fun c => a ++ c) := by
  induction l generalizing s with
  | nil => simp
  | cons p l ih =>
    rw [List.foldl_cons, ih, oldColStep_snd2_some]
    simp only [Finset.mem_insert, List.map_cons, List.mem_cons]
    tauto

theorem mem_oldGatherFold_1 (tables : List TabFile) (x : String) :
    ∀ s, x ∈ (tables.foldl oldTableStep s).1 ↔
      x ∈ s.1 ∨ x ∈ aliasNames tables := by
  induction tables with
  | nil =>
    intro s
    simp [aliasNames]
  | cons t ts ih =>
    intro s
    rw [List.foldl_cons, ih]
    unfold oldTableStep
    rw [foldl_oldColStep_fst]
    cases hal : t.alias? with
    | none =>
      rw [show aliasNames (t :: ts) = aliasNames ts by
        simp [aliasNames, List.filterMap_cons, hal]]
    | some a =>
      rw [show aliasNames (t :: ts) = a :: aliasNames ts by
        simp [aliasNames, List.filterMap_cons, hal]]
      simp only [Finset.mem_insert, List.mem_cons]
      tauto

theorem mem_oldGatherFold_2 (tables : List TabFile) (x : String) :
    ∀ s, x ∈ (tables.foldl oldTableStep s).2.1 ↔
      x ∈ s.2.1 ∨ x ∈ colNames tables := by
  induction tables with
  | nil =>
    intro s
    simp [colNames]
  | cons t ts ih =>
    intro s
    rw [List.foldl_cons, ih]
    unfold oldTableStep
    rw [mem_foldl_oldColStep_snd1]
    rw [show colNames (t :: ts) = contentKeys t ++ colNames ts by
      simp [colNames]]
    have hkeys : (contentKeys t : List String) = t.content.map Prod.fst := rfl
    cases t.alias? <;>
      simp only [List.mem_append, ← hkeys] <;> tauto

theorem mem_oldGatherFold_3 (tables : List TabFile) (x : String) :
    ∀ s, x ∈ (tables.foldl oldTableStep s).2.2 ↔
      x ∈ s.2.2 ∨ x ∈ acolNames tables := by
  induction tables with
  | nil =>
    intro s
    simp [acolNames]
  | cons t ts ih =>
    intro s
    rw [List.foldl_cons, ih]
    unfold oldTableStep
    cases hal : t.alias? with
    | none =>
      rw [foldl_oldColStep_snd2_none, acolNames_cons_none t ts hal]
    | some a =>
      rw [mem_foldl_oldColStep_snd2_some, acolNames_cons_some t ts a hal]
      simp only [List.mem_append]
      have hkeys : (contentKeys t : List String) = t.content.map Prod.fst := rfl
      rw [hkeys]
      tauto

theorem mem_oldGather_1 (tables : List TabFile) (x : String) :
    x ∈ (oldGather tables).1 ↔ x ∈ aliasNames tables := by
  rw [oldGather, mem_oldGatherFold_1]
  simp

theorem mem_oldGather_2 (tables : List TabFile) (x : String) :
    x ∈ (oldGather tables).2.1 ↔ x ∈ colNames tables := by
  rw [oldGather, mem_oldGatherFold_2]
  simp

theorem mem_oldGather_3 (tables : List TabFile) (x : String) :
    x ∈ (oldGather tables).2.2 ↔ x ∈ acolNames tables := by
  rw [oldGather, mem_oldGatherFold_3]
  simp

/-! ### Claim C9: the two resolver revisions -/

/-- C9, counterexample: two alias-free tables that share the bare
column name `a`.  The current resolver marks `a` ambiguous (it was
contributed twice in the same category), the older pairwise-
intersection resolver does not, so the two revisions disagree. -/
theorem c9_counterexample :
    verify_no_naming_collisions
        [{ alias? := none, content := [("a", Value.arr [1])],
           namespace_only := false, length_check := true },
         { alias? := none, content := [("a", Value.arr [1])],
           namespace_only := false, length_check := true }] ≠
      Except.ok (verify_no_naming_collisions_old
        [{ alias? := none, content := [("a", Value.arr [1])],
           namespace_only := false, length_check := true },
         { alias? := none, content := [("a", Value.arr [1])],
           namespace_only := false, length_check := true }]) := by
  decide

/-- C9, amended: the two revisions agree whenever no alias is repeated
and no name is contributed twice within a single category (bare column
names pairwise distinct across tables, alias+column concatenations
pairwise distinct); the difference is exactly same-category duplicates,
which the old pairwise-intersection computation misses (and repeated
aliases, on which only the new revision raises). -/
theorem c9_resolver_equivalence (tables : List TabFile)
    (h1 : (aliasNames tables).Nodup) (h2 : (colNames tables).Nodup)
    (h3 : (acolNames tables).Nodup) :
    verify_no_naming_collisions tables =
      .ok (verify_no_naming_collisions_old tables) := by
  have hok := collectAliasesAux_ok tables ∅ h1 (by simp)
  rw [Finset.empty_union] at hok
  unfold verify_no_naming_collisions
  rw [hok]
  simp only [Bind.bind, Except.bind]
  have hInv : StreamInv ((aliasNames tables).toFinset) (contribs tables)
      ((contribs tables).foldl
        (contribStep ((aliasNames tables).toFinset)) ⟨∅, ∅, ∅⟩) := by
    have := streamInv_fold ((aliasNames tables).toFinset) (contribs tables)
      [] ⟨∅, ∅, ∅⟩ (streamInv_nil _)
    simpa using this
  obtain ⟨hic, hik, him⟩ := hInv
  rw [resolver_fold_eq]
  unfold verify_no_naming_collisions_old
  refine congrArg Except.ok ?_
  refine Prod.ext ?_ (Prod.ext ?_ (Prod.ext ?_ ?_))
  · apply Finset.ext
    intro x
    rw [List.mem_toFinset, mem_oldGather_1]
  · apply Finset.ext
    intro x
    rw [hic x, mem_iff_countC_pos, countC_contribs_col,
      ← mem_iff_countS_pos, mem_oldGather_2]
  · apply Finset.ext
    intro x
    rw [hik x, mem_iff_countC_pos, countC_contribs_acol,
      ← mem_iff_countS_pos, mem_oldGather_3]
  · apply Finset.ext
    intro x
    rw [him x, countC_contribs_col, countC_contribs_acol]
    simp only [Finset.mem_union, Finset.mem_inter,
      mem_oldGather_1, mem_oldGather_2, mem_oldGather_3,
      mem_iff_countS_pos]
    have ea : (if x ∈ (aliasNames tables).toFinset then 1 else 0) =
        countS (aliasNames tables) x := by
      rw [countS_of_nodup _ _ h1]
      by_cases hx : x ∈ (aliasNames tables).toFinset
      · rw [if_pos hx, if_pos (List.mem_toFinset.mp hx)]
      · rw [if_neg hx, if_neg (fun hh => hx (List.mem_toFinset.mpr hh))]
    rw [ea]
    have ba : countS (aliasNames tables) x ≤ 1 := by
      rw [countS_of_nodup _ _ h1]
      split <;> omega
    have bc : countS (colNames tables) x ≤ 1 := by
      rw [countS_of_nodup _ _ h2]
      split <;> omega
    have bk : countS (acolNames tables) x ≤ 1 := by
      rw [countS_of_nodup _ _ h3]
      split <;> omega
    omega

/-- Witness for the amended C9 theorem at a concrete cross-category
collision: the aliased column `Ax` of the first table collides with the
bare column `Ax` of the second, and both resolvers flag it. -/
theorem c9_resolver_equivalence_witness :
    verify_no_naming_collisions
        [{ alias? := some "A", content := [("x", Value.arr [1])],
           namespace_only := false, length_check := true },
         { alias? := none, content := [("Ax", Value.arr [2])],
           namespace_only := false, length_check := true }] =
      .ok (verify_no_naming_collisions_old
        [{ alias? := some "A", content := [("x", Value.arr [1])],
           namespace_only := false, length_check := true },
         { alias? := none, content := [("Ax", Value.arr [2])],
           namespace_only := false, length_check := true }]) :=
  c9_resolver_equivalence _ (by decide) (by decide) (by decide)

/-! ### Claim C3: the empty-token full dump -/

/-- C3, counterexample: with two alias-free tables sharing the column
name `a`, the empty-token path appends the bare names to the token list
and runs them through the same loop — whose first check is the
ambiguity check — so the "whole dump" fails with `AmbiguousRequest`,
contrary to the claim that this path never does. -/
theorem c3_counterexample :
    cat_control
        [{ alias? := none, content := [("a", Value.arr [1])],
           namespace_only := false, length_check := true },
         { alias? := none, content := [("a", Value.arr [1])],
           namespace_only := false, length_check := true }] [] =
      .error (.ambiguousRequest "a") := by
  decide

/-- C3, amended: an empty token list behaves exactly as if every column
of every non-namespace-only table were individually listed in table
order — including the ambiguity check, which this path does re-run (it
is the whole-table-alias branch, not the empty-token path, that skips
it).  In particular the full dump is the plain concatenation when no
listed name is ambiguous, as on the Scenario A table. -/
theorem c3_empty_tokens_amended :
    (∀ tables : List TabFile,
       cat_control tables [] = cat_control tables (fullListing tables))
    ∧ (cat_control
        [{ alias? := some "A",
           content := [("a", Value.arr [7, 0, 1, 3, 7]),
                       ("b", Value.arr [8, 5, 2, 4, 1]),
                       ("c", Value.arr [2, 0, 3, 5, 4])],
           namespace_only := false, length_check := true }] []).toOption.map
        (fun r => r.1.content.map Prod.fst) = some ["a", "b", "c"] := by
  constructor
  · intro tables
    unfold cat_control
    have : cat_assemble tables [] = cat_assemble tables (fullListing tables) := by
      simp only [cat_assemble, ite_self, if_true]
    rw [this]
  · decide

/-! ### Claim C5: the alias-prefixed token path -/

/-- C5, counterexample: construction accepts the two-character alias
`"AB"`, the token `"ABc"` is in `aliased_column_names`, yet the
assembly copies nothing — the loop compares only the token's first
character `arg[0]` against each alias, no table matches, and the token
is silently dropped: the output table has no columns at all. -/
theorem c5_counterexample :
    mkTabularFile [("c", Value.arr [1, 2])] (some "AB") false true =
      .ok { alias? := some "AB", content := [("c", Value.arr [1, 2])],
            namespace_only := false, length_check := true }
    ∧ (cat_control
        [{ alias? := some "AB", content := [("c", Value.arr [1, 2])],
           namespace_only := false, length_check := true }]
        ["ABc"]).toOption.map (fun r => r.1.content) = some [] := by
  constructor
  · decide
  · decide

/-- C5, amended: the claimed copy-under-bare-name behaviour holds
exactly when the first table whose alias equals the token's first
character (the source compares `arg[0]`, one character, and strips one
character) has a column named by the rest of the token — i.e. for
single-character aliases; longer aliases are accepted at construction
but never matched by this branch. -/
theorem c5_single_char_alias_amended
    (aliases colnames acolnames ambig : Finset String)
    (tables : List TabFile) (input_source out : List (String × Value))
    (ws : List Warning) (arg : String) (t : TabFile) (v : Value)
    (h1 : arg ∉ ambig) (h2 : arg ∉ aliases) (h3 : arg ∉ colnames)
    (h4 : arg ∈ acolnames)
    (h5 : tables.find? (fun t => decide (t.alias? = some (arg.take 1))) =
      some t)
    (h6 : lookupKey t.content (arg.drop 1) = some v) :
    processArg aliases colnames acolnames ambig tables input_source
        (out, ws) arg =
      .ok (setKey out (arg.drop 1) v,
           if (lookupKey out (arg.drop 1)).isSome then
             ws ++ [.clobber (arg.drop 1)]
           else ws) := by
  unfold processArg
  rw [if_neg h1, if_neg h2, if_neg h3, if_pos h4]
  simp only [h5, h6]

/-- Witness for the amended C5 theorem, at a single-character alias:
token `"Ab"` copies column `b` of the table aliased `A`. -/
theorem c5_single_char_alias_amended_witness :
    processArg ∅ ∅ {"Ab"} ∅
        [{ alias? := some "A", content := [("b", Value.arr [1])],
           namespace_only := false, length_check := true }]
        [] ([], []) "Ab" = .ok ([("b", Value.arr [1])], []) :=
  (c5_single_char_alias_amended ∅ ∅ {"Ab"} ∅ _ [] [] [] "Ab"
    { alias? := some "A", content := [("b", Value.arr [1])],
      namespace_only := false, length_check := true }
    (Value.arr [1]) (by decide) (by decide) (by decide) (by decide)
    (by decide) (by decide)).trans (by decide)

/-! ### Claim C6: the delete sentinel -/

/-- C6: a `name=expr` token whose expression evaluates to the delete
sentinel removes the column `name` from the output with a remove
warning when it is present, and fails with `RemoveNotFound` otherwise
(first conjunct, at the token-processing step with the precedence
conditions of the loop); and Scenario C holds: on the aliased table,
tokens `["A", "c=None"]` yield exactly the columns `a, b` with a
remove-warning for `c` (second conjunct). -/
theorem c6_delete_sentinel :
    (∀ (aliases colnames acolnames ambig : Finset String)
       (tables : List TabFile) (input_source out : List (String × Value))
       (ws : List Warning) (arg : String) (hdl esl : List Char),
       arg ∉ ambig → arg ∉ aliases → arg ∉ colnames → arg ∉ acolnames →
       containsChar arg '=' = true →
       splitFirstChars '=' arg.data = (hdl, esl) →
       pyStrip (String.mk hdl) ≠ "" →
       pyStrip (String.mk esl) ≠ "" →
       eval_from_dict_str (dictUpdate input_source out)
         (pyStrip (String.mk esl)) = .ok .pynone →
       processArg aliases colnames acolnames ambig tables input_source
           (out, ws) arg =
         if (lookupKey out (pyStrip (String.mk hdl))).isSome then
           .ok (delKey out (pyStrip (String.mk hdl)),
                ws ++ [.remove (pyStrip (String.mk hdl))])
         else .error (.removeNotFound (pyStrip (String.mk hdl))))
    ∧ (cat_control
        [{ alias? := some "A",
           content := [("a", Value.arr [7, 0, 1, 3, 7]),
                       ("b", Value.arr [8, 5, 2, 4, 1]),
                       ("c", Value.arr [2, 0, 3, 5, 4])],
           namespace_only := false, length_check := true }]
        ["A", "c=None"]).toOption.map
        (fun r => (r.1.content, r.2.2)) =
      some ([("a", Value.arr [7, 0, 1, 3, 7]),
             ("b", Value.arr [8, 5, 2, 4, 1])],
            [Warning.remove "c"]) := by
  constructor
  · intro aliases colnames acolnames ambig tables input_source out ws arg
      hdl esl h1 h2 h3 h4 h5 h6 h9 h10 h11
    unfold processArg
    rw [if_neg h1, if_neg h2, if_neg h3, if_neg h4, if_pos h5]
    simp only [h6]
    rw [if_neg h9, if_neg h10]
    simp only [h11, Bind.bind, Except.bind]
  · decide

/-- Witness for the step-level conjunct of the C6 theorem: deleting a
column that is not in the output fails with `RemoveNotFound`. -/
theorem c6_delete_sentinel_witness :
    processArg ∅ ∅ ∅ ∅ [] [] ([], []) "y=None" =
      .error (.removeNotFound "y") :=
  (c6_delete_sentinel.1 ∅ ∅ ∅ ∅ [] [] [] [] "y=None" ['y']
    ['N', 'o', 'n', 'e']
    (by decide) (by decide) (by decide) (by decide) (by decide) (by decide)
    (by decide) (by decide) (by decide)).trans (by decide)

/-! ### Claim C10: scalar outputs never yield a table -/

theorem lookupKey_some_mem (m : List (String × Value)) (k : String)
    (v : Value) (h : lookupKey m k = some v) : (k, v) ∈ m := by
  induction m with
  | nil => simp at h
  | cons p rest ih =>
    obtain ⟨a, w⟩ := p
    rw [lookupKey_cons] at h
    by_cases ha : a = k
    · rw [if_pos ha] at h
      subst ha
      rw [List.mem_cons]
      left
      rw [Option.some.injEq] at h
      rw [h]
    · rw [if_neg ha] at h
      exact List.mem_cons_of_mem _ (ih h)

theorem pyLen_error_eq (v : Value) (e : ThreshErr)
    (h : pyLen v = .error e) : e = .lenTypeError := by
  cases v <;> simp_all [pyLen]

theorem mapM_pyLen_cases (m : List (String × Value)) :
    (∃ ls, m.mapM (fun p => pyLen p.2) = .ok ls) ∨
      m.mapM (fun p => pyLen p.2) = .error .lenTypeError := by
  induction m with
  | nil => exact Or.inl ⟨[], rfl⟩
  | cons p rest ih =>
    simp only [List.mapM_cons]
    cases hp : pyLen p.2 with
    | error e =>
      have he := pyLen_error_eq p.2 e hp
      subst he
      exact Or.inr rfl
    | ok n =>
      rcases ih with ⟨ls, hok⟩ | herr
      · refine Or.inl ⟨n :: ls, ?_⟩
        rw [hok]
        rfl
      · refine Or.inr ?_
        rw [herr]
        rfl

theorem mapM_pyLen_ok_all (m : List (String × Value)) (ls : List Nat)
    (h : m.mapM (fun p => pyLen p.2) = .ok ls) :
    ∀ p ∈ m, ∃ n, pyLen p.2 = .ok n := by
  induction m generalizing ls with
  | nil => simp
  | cons p rest ih =>
    simp only [List.mapM_cons] at h
    cases hp : pyLen p.2 with
    | error e =>
      rw [hp] at h
      simp [Bind.bind, Except.bind] at h
    | ok n =>
      rw [hp] at h
      cases hrest : rest.mapM (fun p => pyLen p.2) with
      | error e =>
        rw [hrest] at h
        simp [Bind.bind, Except.bind] at h
      | ok ls' =>
        rw [hrest] at h
        intro q hq
        rcases List.mem_cons.mp hq with rfl | hq
        · exact ⟨n, hp⟩
        · exact ih ls' hrest q hq

/-- When the accumulated output holds a scalar, the final construction
fails with the `TypeError` from `len(scalar)`. -/
theorem mkTabularFile_scalar (output : List (String × Value)) (k : String)
    (q : ℚ) (h : lookupKey output k = some (.num q)) :
    mkTabularFile output none false true = .error .lenTypeError := by
  have hne : output ≠ [] := by
    intro he
    rw [he] at h
    simp at h
  have hmem : (k, Value.num q) ∈ output := lookupKey_some_mem output k _ h
  have herr : output.mapM (fun p => pyLen p.2) =
      .error .lenTypeError := by
    rcases mapM_pyLen_cases output with ⟨ls, hok⟩ | herr
    · obtain ⟨n, hn⟩ := mapM_pyLen_ok_all output ls hok (k, Value.num q) hmem
      simp [pyLen] at hn
    · exact herr
  unfold mkTabularFile checkAlias checkLengths
  rw [if_pos ⟨rfl, hne⟩, herr]

/-- C10: an assignment token whose expression evaluates to a scalar is
stored as an output column (first conjunct, at the token-processing
step); and whenever the token loop succeeds with an output whose column
`k` holds a scalar, the final `TabularFile` construction (with its
default `length_check = true`) fails with the `TypeError` raised by
taking `len` of that scalar — so the assembly never returns a table
(second conjunct). -/
theorem c10_scalar_never_table :
    (∀ (aliases colnames acolnames ambig : Finset String)
       (tables : List TabFile) (input_source out : List (String × Value))
       (ws : List Warning) (arg : String) (hdl esl : List Char) (q : ℚ),
       arg ∉ ambig → arg ∉ aliases → arg ∉ colnames → arg ∉ acolnames →
       containsChar arg '=' = true →
       splitFirstChars '=' arg.data = (hdl, esl) →
       pyStrip (String.mk hdl) ≠ "" →
       pyStrip (String.mk esl) ≠ "" →
       eval_from_dict_str (dictUpdate input_source out)
         (pyStrip (String.mk esl)) = .ok (.num q) →
       processArg aliases colnames acolnames ambig tables input_source
           (out, ws) arg =
         .ok (setKey out (pyStrip (String.mk hdl)) (.num q),
              if (lookupKey out (pyStrip (String.mk hdl))).isSome then
                ws ++ [.clobber (pyStrip (String.mk hdl))]
              else ws))
    ∧ (∀ (tables : List TabFile) (args : List String)
       (output ns : List (String × Value)) (ws : List Warning)
       (k : String) (q : ℚ),
       cat_assemble tables args = .ok (output, ns, ws) →
       lookupKey output k = some (.num q) →
       cat_control tables args = .error .lenTypeError) := by
  constructor
  · intro aliases colnames acolnames ambig tables input_source out ws arg
      hdl esl q h1 h2 h3 h4 h5 h6 h9 h10 h11
    unfold processArg
    rw [if_neg h1, if_neg h2, if_neg h3, if_neg h4, if_pos h5]
    simp only [h6]
    rw [if_neg h9, if_neg h10]
    simp only [h11, Bind.bind, Except.bind]
  · intro tables args output ns ws k q hassem hlook
    unfold cat_control
    rw [hassem]
    simp only [Bind.bind, Except.bind]
    rw [mkTabularFile_scalar output k q hlook]

/-- Witness for C10: assembling `x=5` from no tables stores the scalar
`5`, and the final construction fails with the length `TypeError`. -/
theorem c10_scalar_never_table_witness :
    cat_control [] ["x=5"] = .error .lenTypeError :=
  c10_scalar_never_table.2 [] ["x=5"]
    [("x", Value.num 5)]
    (dictUpdate [("__aliases", Value.aliasesObj [])] [("x", Value.num 5)])
    [] "x" 5 (by decide) (by decide)

/-! ### Claim C8: assert exit codes -/

/-- Python `bool()` on the values the assert loop can see: scalars by
comparison with zero, `None` falsy, functions and modules truthy, a
dict by emptiness; `bool` of an array that does not have exactly one
element raises (numpy's ambiguous/empty truth value). -/
def pyBool : Value → Except EvalErr Bool
  | .num q => .ok (decide (q ≠ 0))
  | .arr [x] => .ok (decide (x ≠ 0))
  | .arr _ => .error .typeError
  | .pynone => .ok false
  | .builtin _ => .ok true
  | .npmodule => .ok true
  | .aliasesObj o => .ok (decide (o ≠ []))

/-- Evaluate one assert statement to its truth value (`bool(val)` after
`eval_from_dict`). -/
def evalTruthy (ns : List (String × Value)) (e : Expr) :
    Except EvalErr Bool :=
  match eval_from_dict ns e with
  | .ok v => pyBool v
  | .error err => .error err

/-- The assert loop of `main`: `return_code = max(return_code,
0 if bool(val) else 1)` over the statements, any evaluation fault
propagating. -/
def assertLoop (ns : List (String × Value)) (rc : ℕ) :
    List Expr → Except EvalErr ℕ
  | [] => .ok rc
  | e :: es =>
      match eval_from_dict ns e with
      | .error err => .error err
      | .ok v =>
          match pyBool v with
          | .error err => .error err
          | .ok b => assertLoop ns (max rc (if b then 0 else 1)) es

/-- The assert branch of `main`, starting from return code 0. -/
def assert_control (ns : List (String × Value)) (stmts : List Expr) :
    Except EvalErr ℕ :=
  assertLoop ns 0 stmts

/-- The process exit status under the `__main__` guard: the returned
code on success; CPython terminates with status 1 on an uncaught
exception. -/
def processExit : Except EvalErr ℕ → ℕ
  | .ok rc => rc
  | .error _ => 1

/-- What reaches the error stream at termination: nothing on success,
the uncaught error's diagnostic otherwise (CPython writes the traceback
to stderr). -/
def processErrOut : Except EvalErr ℕ → Option EvalErr
  | .ok _ => none
  | .error e => some e

theorem assertLoop_ok (ns : List (String × Value)) (stmts : List Expr)
    (h : ∀ e ∈ stmts, ∃ b, evalTruthy ns e = .ok b) :
    ∀ rc, assertLoop ns rc stmts =
      .ok (if ∀ e ∈ stmts, evalTruthy ns e = .ok true then rc
           else max rc 1) := by
  induction stmts with
  | nil =>
    intro rc
    simp [assertLoop]
  | cons e es ih =>
    intro rc
    obtain ⟨b, hb⟩ := h e (List.mem_cons_self e es)
    have hband : ∃ v, eval_from_dict ns e = .ok v ∧ pyBool v = .ok b := by
      revert hb
      unfold evalTruthy
      cases hev : eval_from_dict ns e with
      | error err => simp
      | ok v =>
        intro hb
        exact ⟨v, rfl, hb⟩
    obtain ⟨v, hev, hpb⟩ := hband
    have htail : ∀ x ∈ es, ∃ b, evalTruthy ns x = .ok b := fun x hx =>
      h x (List.mem_cons_of_mem _ hx)
    have hhead : evalTruthy ns e = .ok b := by
      unfold evalTruthy
      rw [hev]
      exact hpb
    unfold assertLoop
    simp only [hev, hpb]
    rw [ih htail]
    by_cases hall : ∀ x ∈ es, evalTruthy ns x = .ok true
    · rw [if_pos hall]
      cases b with
      | true =>
        have : ∀ x ∈ e :: es, evalTruthy ns x = .ok true := by
          intro x hx
          rcases List.mem_cons.mp hx with rfl | hx
          · exact hhead
          · exact hall x hx
        rw [if_pos this]
        simp
      | false =>
        have : ¬ ∀ x ∈ e :: es, evalTruthy ns x = .ok true := by
          intro hcontra
          have := hcontra e (List.mem_cons_self e es)
          rw [hhead] at this
          simp at this
        rw [if_neg this]
        simp
    · rw [if_neg hall]
      have : ¬ ∀ x ∈ e :: es, evalTruthy ns x = .ok true := by
        intro hcontra
        exact hall (fun x hx => hcontra x (List.mem_cons_of_mem _ hx))
      rw [if_neg this]
      cases b with
      | true => simp
      | false => simp

/-- C8: when every assert expression evaluates (to a value with a
truth value), the process exits 0 iff all of them are truthy and exits
1 iff some is falsy (first conjunct); an evaluation fault makes the
assert stage fail, in which case the process terminates with a
non-zero status and the error on the error stream (second
conjunct). -/
theorem c8_assert_exit_codes (ns : List (String × Value))
    (stmts : List Expr) :
    ((∀ e ∈ stmts, ∃ b, evalTruthy ns e = .ok b) →
      ((processExit (assert_control ns stmts) = 0 ↔
          ∀ e ∈ stmts, evalTruthy ns e = .ok true) ∧
       (processExit (assert_control ns stmts) = 1 ↔
          ∃ e ∈ stmts, evalTruthy ns e = .ok false)))
    ∧ (∀ err, assert_control ns stmts = .error err →
        processExit (assert_control ns stmts) ≠ 0 ∧
        processErrOut (assert_control ns stmts) = some err) := by
  constructor
  · intro h
    have hloop := assertLoop_ok ns stmts h 0
    have hiff : (¬ ∀ e ∈ stmts, evalTruthy ns e = .ok true) ↔
        (∃ e ∈ stmts, evalTruthy ns e = .ok false) := by
      constructor
      · intro hna
        push_neg at hna
        obtain ⟨e, he, hne⟩ := hna
        obtain ⟨b, hb⟩ := h e he
        cases b with
        | true => exact absurd hb hne
        | false => exact ⟨e, he, hb⟩
      · rintro ⟨e, he, hf⟩ hall
        have := hall e he
        rw [this] at hf
        simp at hf
    unfold assert_control
    rw [hloop]
    by_cases hall : ∀ e ∈ stmts, evalTruthy ns e = .ok true
    · rw [if_pos hall]
      refine ⟨⟨fun _ => hall, fun _ => rfl⟩, ?_, ?_⟩
      · intro h01
        simp only [processExit] at h01
        omega
      · intro hex
        exact absurd hall (hiff.mpr hex)
    · rw [if_neg hall]
      refine ⟨⟨?_, fun hassume => absurd hassume hall⟩, ?_, ?_⟩
      · intro h10
        simp only [processExit] at h10
        omega
      · intro _
        exact hiff.mp hall
      · intro _
        simp only [processExit]
        omega
  · intro err herr
    unfold assert_control at herr ⊢
    rw [herr]
    exact ⟨by simp [processExit], by simp [processErrOut]⟩

/-- Witness for C8: a single truthy assert statement exits 0. -/
theorem c8_assert_exit_codes_witness :
    processExit (assert_control [] [Expr.lit 1]) = 0 :=
  ((c8_assert_exit_codes [] [Expr.lit 1]).1
    (by
      intro e he
      rw [List.mem_singleton] at he
      subst he
      exact ⟨true, by decide⟩)).1.mpr
    (by
      intro e he
      rw [List.mem_singleton] at he
      subst he
      decide)

/-! ### Claim C7: the fixed-width renderer -/

/-- Occurrence count of a character in a character list. -/
def countChars : List Char → Char → ℕ
  | [], _ => 0
  | x :: l, c => countChars l c + if x = c then 1 else 0

theorem data_mk (l : List Char) : (String.mk l).data = l := rfl

theorem countChars_append (l1 l2 : List Char) (c : Char) :
    countChars (l1 ++ l2) c = countChars l1 c + countChars l2 c := by
  induction l1 with
  | nil => simp [countChars]
  | cons x l ih => simp [countChars, ih]; omega

theorem countChars_replicate_space (n : ℕ) (c : Char) (h : c ≠ ' ') :
    countChars (List.replicate n ' ') c = 0 := by
  induction n with
  | zero => rfl
  | succ n ih =>
    rw [List.replicate_succ]
    simp only [countChars, ih]
    rw [if_neg (fun hh => h hh.symm)]

theorem countChars_leftPad (w : ℕ) (s : String) (c : Char) (h : c ≠ ' ') :
    countChars (leftPad w s).data c = countChars s.data c := by
  unfold leftPad
  rw [String.data_append, data_mk, countChars_append,
    countChars_replicate_space _ _ h]
  omega

theorem countChars_joinWith (c : Char) (fields : List String)
    (hne : fields ≠ []) (hz : ∀ f ∈ fields, countChars f.data c = 0) :
    countChars (joinWith (String.mk [c]) fields).data c =
      fields.length - 1 := by
  induction fields with
  | nil => exact absurd rfl hne
  | cons x xs ih =>
    cases xs with
    | nil =>
      simp only [joinWith, List.length_singleton]
      rw [hz x (List.mem_singleton_self x)]
    | cons y ys =>
      rw [show joinWith (String.mk [c]) (x :: y :: ys) =
        x ++ String.mk [c] ++ joinWith (String.mk [c]) (y :: ys) from rfl]
      rw [String.data_append, String.data_append, data_mk,
        countChars_append, countChars_append,
        hz x (List.mem_cons_self x _),
        ih (by simp) (fun f hf => hz f (List.mem_cons_of_mem _ hf))]
      have hone : countChars [c] c = 1 := by simp [countChars]
      rw [hone]
      simp only [List.length_cons]
      omega

theorem leftPad_length (w : ℕ) (s : String) (h : s.length ≤ w) :
    (leftPad w s).length = w := by
  unfold leftPad
  rw [String.length_append]
  have h1 : (String.mk (List.replicate (w - s.length) ' ')).length =
      w - s.length := by
    rw [show (String.mk (List.replicate (w - s.length) ' ')).length =
      (List.replicate (w - s.length) ' ').length from rfl]
    rw [List.length_replicate]
  rw [h1]
  omega

theorem foldl_max_le_acc (m : List (String × Value)) :
    ∀ acc : ℕ, acc ≤ m.foldl (fun a q => max a q.1.length) acc := by
  induction m with
  | nil => intro acc; rfl
  | cons p rest ih =>
    intro acc
    rw [List.foldl_cons]
    exact le_trans (le_max_left acc p.1.length) (ih _)

theorem mem_le_foldl_max (m : List (String × Value)) (p : String × Value)
    (hp : p ∈ m) :
    ∀ acc : ℕ, p.1.length ≤ m.foldl (fun a q => max a q.1.length) acc := by
  induction m with
  | nil => exact absurd hp (List.not_mem_nil p)
  | cons q rest ih =>
    intro acc
    rw [List.foldl_cons]
    rcases List.mem_cons.mp hp with rfl | hp'
    · exact le_trans (le_max_right acc p.1.length) (foldl_max_le_acc rest _)
    · exact ih hp' _

theorem le_maxKeyLen (m : List (String × Value)) (p : String × Value)
    (hp : p ∈ m) : p.1.length ≤ maxKeyLen m :=
  mem_le_foldl_max m p hp 0

theorem digitChar_isDigit (n : ℕ) (h : n < 10) :
    (Nat.digitChar n).isDigit = true := by
  interval_cases n <;> decide

theorem sciParts_shape (neg : Bool) (m : ℕ) (e : ℤ) :
    ∃ (sign lead : Char) (tail ex : List Char),
      (sign = '+' ∨ sign = '-') ∧ tail.length = 17 ∧
      (∀ ch ∈ tail, ch.isDigit = true) ∧
      (sciParts neg m e).data = sign :: lead :: '.' :: (tail ++ 'e' :: ex) := by
  refine ⟨if neg then '-' else '+', Nat.digitChar (m / 10 ^ 17 % 10),
    (List.range 17).map (fun i => Nat.digitChar (m / 10 ^ (16 - i) % 10)),
    ((if e < 0 then "-" else "+") ++ expDigits e.natAbs).data,
    ?_, by simp, ?_, ?_⟩
  · cases neg
    · left
      decide
    · right
      decide
  · intro ch hch
    simp only [List.mem_map, List.mem_range] at hch
    obtain ⟨i, _, rfl⟩ := hch
    exact digitChar_isDigit _ (Nat.mod_lt _ (by norm_num))
  · unfold sciParts
    cases neg <;>
      simp [String.data_append, data_mk, List.append_assoc]

theorem fmtSci_eq_sciParts (q : ℚ) :
    ∃ neg m e, fmtSci q = sciParts neg m e := by
  unfold fmtSci
  split
  · exact ⟨false, 0, 0, rfl⟩
  · dsimp only
    split
    · exact ⟨_, _, _, rfl⟩
    · exact ⟨_, _, _, rfl⟩

theorem fmtSci_shape (q : ℚ) :
    ∃ (sign lead : Char) (tail ex : List Char),
      (sign = '+' ∨ sign = '-') ∧ tail.length = 17 ∧
      (∀ ch ∈ tail, ch.isDigit = true) ∧
      (fmtSci q).data = sign :: lead :: '.' :: (tail ++ 'e' :: ex) := by
  obtain ⟨neg, m, e, hq⟩ := fmtSci_eq_sciParts q
  rw [hq]
  exact sciParts_shape neg m e

/-- Inversion of the renderer: a successful rendering has non-empty
content, and its first line is the joined, padded header fields. -/
theorem asTextLines_ok (t : TabFile) (d : String) (ls : List String)
    (h : asTextLines t d = .ok ls) :
    t.content ≠ [] ∧ ∃ dls, ls =
      joinWith d (t.content.map (fun p =>
        leftPad (max len_biggest_number (maxKeyLen t.content) + 1) p.1))
      :: dls := by
  unfold asTextLines at h
  split at h
  · simp at h
  · next hne =>
    refine ⟨hne, ?_⟩
    simp only [Bind.bind, Except.bind] at h
    split at h
    · simp at h
    · split at h
      · simp at h
      · simp only [Except.ok.injEq] at h
        exact ⟨_, h.symm⟩

/-- C7, counterexample: rendering the two-column table `a=[8], b=[5]`
with delimiter `","`, the header line ends with the character `b` (the
last padded header), not with the delimiter — `str.join` places the
delimiter only between fields, never after the last one, contradicting
the claimed trailing delimiter. -/
theorem c7_counterexample :
    (asTextLines
        { alias? := none,
          content := [("a", Value.arr [8]), ("b", Value.arr [5])],
          namespace_only := false, length_check := true } ",").toOption.map
      (fun ls => (ls.headD "").data.getLast?) = some (some 'b')
    ∧ ('b' : Char) ≠ ',' :=
  ⟨by decide, by decide⟩

/-- C7, amended: a successful rendering's first line is the headers,
each right-aligned in a field of exactly
`max (len of "+1." ++ 17 zeros ++ "e+301") (longest header) + 1`
characters, joined with the delimiter placed only between adjacent
fields — for a one-character delimiter foreign to the headers the line
contains exactly `columns - 1` delimiter occurrences, none trailing
(first conjunct); and every value is formatted as a sign-prefixed
scientific-notation string with exactly 17 digits after the decimal
point (second conjunct). -/
theorem c7_as_text_amended :
    (∀ (t : TabFile) (d : String) (ls : List String),
       asTextLines t d = .ok ls →
       (∃ dls, ls = joinWith d (t.content.map (fun p =>
           leftPad (max len_biggest_number (maxKeyLen t.content) + 1) p.1))
         :: dls)
       ∧ (∀ p ∈ t.content,
           (leftPad (max len_biggest_number (maxKeyLen t.content) + 1)
             p.1).length = max len_biggest_number (maxKeyLen t.content) + 1)
       ∧ (∀ c : Char, d = String.mk [c] → c ≠ ' ' →
           (∀ p ∈ t.content, countChars p.1.data c = 0) →
           countChars (joinWith d (t.content.map (fun p =>
             leftPad (max len_biggest_number (maxKeyLen t.content) + 1)
               p.1))).data c = t.content.length - 1))
    ∧ (∀ q : ℚ, ∃ (sign lead : Char) (tail ex : List Char),
        (sign = '+' ∨ sign = '-') ∧ tail.length = 17 ∧
        (∀ ch ∈ tail, ch.isDigit = true) ∧
        (fmtSci q).data = sign :: lead :: '.' :: (tail ++ 'e' :: ex)) := by
  constructor
  · intro t d ls h
    obtain ⟨hne, hdls⟩ := asTextLines_ok t d ls h
    refine ⟨hdls, ?_, ?_⟩
    · intro p hp
      apply leftPad_length
      have h1 := le_maxKeyLen t.content p hp
      omega
    · intro c hcd hcs hz
      subst hcd
      have hne' : t.content.map (fun p =>
          leftPad (max len_biggest_number (maxKeyLen t.content) + 1) p.1)
          ≠ [] := fun hmap => hne (List.map_eq_nil_iff.mp hmap)
      have hz' : ∀ f ∈ t.content.map (fun p =>
          leftPad (max len_biggest_number (maxKeyLen t.content) + 1) p.1),
          countChars f.data c = 0 := by
        intro f hf
        rw [List.mem_map] at hf
        obtain ⟨p, hp, rfl⟩ := hf
        rw [countChars_leftPad _ _ _ hcs]
        exact hz p hp
      rw [countChars_joinWith c _ hne' hz', List.length_map]
  · exact fmtSci_shape

/-- Witness for the amended C7 theorem, at a one-column table with no
rows: the rendering is just the padded header line. -/
theorem c7_as_text_amended_witness :
    (∃ dls, ["                         a"] = joinWith ","
        (([("a", Value.arr ([] : List ℚ))] : List (String × Value)).map
          (fun p => leftPad (max len_biggest_number
            (maxKeyLen [("a", Value.arr ([] : List ℚ))]) + 1) p.1)) :: dls)
    ∧ (∀ p ∈ ([("a", Value.arr ([] : List ℚ))] : List (String × Value)),
        (leftPad (max len_biggest_number
          (maxKeyLen [("a", Value.arr ([] : List ℚ))]) + 1) p.1).length =
          max len_biggest_number
            (maxKeyLen [("a", Value.arr ([] : List ℚ))]) + 1)
    ∧ (∀ c : Char, ("," : String) = String.mk [c] → c ≠ ' ' →
        (∀ p ∈ ([("a", Value.arr ([] : List ℚ))] : List (String × Value)),
          countChars p.1.data c = 0) →
        countChars (joinWith ","
          (([("a", Value.arr ([] : List ℚ))] : List (String × Value)).map
            (fun p => leftPad (max len_biggest_number
              (maxKeyLen [("a", Value.arr ([] : List ℚ))]) + 1)
              p.1))).data c =
          ([("a", Value.arr ([] : List ℚ))] : List (String × Value)).length
            - 1) :=
  c7_as_text_amended.1
    { alias? := none, content := [("a", Value.arr ([] : List ℚ))],
      namespace_only := false, length_check := true } ","
    ["                         a"] (by decide)

end Thresh
